import Mathlib

/-!
Equation evaluator (`equation_evaluator.cc`).

A shallow embedding of class `eqn_eval` and the properties of its member
functions.

Modelling conventions.

* A `std::string` is a list of characters (`Str`).  The characters the program
  tests for (`'='`, `' '`, `'+'`, letters, digits) are ASCII, and the ordering
  of `std::string` (byte-wise lexicographic) is the ordering by character code.
* `expression` (a `std::unordered_map<std::string, std::string>`) is an
  association list with pairwise different keys; the order of the list is the
  order in which a range-`for` visits it, which the standard leaves open, so
  statements about a run hold for every order of the list.
* `result` (a `std::map<std::string, uint32_t>`) is an association list kept in
  ascending key order by `result_set`.
* `uint32_t` arithmetic on `res` is arithmetic modulo `2 ^ 32`.  Strings are
  shorter than `2 ^ 32` characters, so the `uint32_t` loop index `i` and the
  counter `unknows_num` do not wrap.
* A thrown `std::exception` is an `Except.error`; the `while` loop of
  `run_evaluation` takes a bound on the number of passes and answers
  `Outcome.running` when the bound is used up with the loop still going.
-/

namespace EqnEval

/-- A `std::string`. -/
abbrev Str := List Char

/-- The exceptions `std::stoi` throws. -/
inductive Err where
  | invalid_argument
  | out_of_range
  deriving DecidableEq, Repr

deriving instance DecidableEq for Except

/-- Lookup `m.find(k)` in an association list: the mapped value of the first
entry with key `k`, or `none` for `m.end()`. -/
def find {β : Type} : List (Str × β) → Str → Option β
  | [], _ => none
  | (k, v) :: t, x => if x = k then some v else find t x

/-- Comparison `a < b` of two `std::string`s: lexicographic by character code. -/
def str_lt : Str → Str → Bool
  | [], [] => false
  | [], _ :: _ => true
  | _ :: _, [] => false
  | a :: as, b :: bs =>
    if a.toNat < b.toNat then true else if b.toNat < a.toNat then false else str_lt as bs

/-- Assignment `expression[k] = v` on the `std::unordered_map`: the mapped value
of an existing key is replaced, a new key gets a new entry.  Where the new entry
comes in the visiting order is left open by the standard; the list puts it
last, and what is proved about a run is proved for every order of the table. -/
def expression_set : List (Str × Str) → Str → Str → List (Str × Str)
  | [], k, v => [(k, v)]
  | (k0, v0) :: t, k, v => if k = k0 then (k0, v) :: t else (k0, v0) :: expression_set t k v

/-- Assignment `result[k] = v` on the `std::map`: the mapped value of an
existing key is replaced, a new key is inserted at its place in the key order. -/
def result_set : List (Str × Nat) → Str → Nat → List (Str × Nat)
  | [], k, v => [(k, v)]
  | (k0, v0) :: t, k, v =>
    if k = k0 then (k0, v) :: t
    else if str_lt k k0 then (k, v) :: (k0, v0) :: t
    else (k0, v0) :: result_set t k v

/-- The two data members of `eqn_eval`. -/
structure State where
  expression : List (Str × Str)
  result : List (Str × Nat)
  deriving DecidableEq, Repr

/-- The loop of `build_expression` over the characters of the line, carrying
`buffer` and `variable_name`. -/
def build_loop : List Char → Str → Str → Str × Str
  | [], buffer, variable_name => (variable_name, buffer)
  | c :: rest, buffer, variable_name =>
    if c ≠ '=' then
      if c ≠ ' ' then build_loop rest (buffer ++ [c]) variable_name
      else build_loop rest buffer variable_name
    else build_loop rest [] buffer

/-- `build_expression(line_contents)`: run the loop from empty `buffer` and
`variable_name`, then `expression[variable_name] = buffer`. -/
def build_expression (s : State) (line_contents : Str) : State :=
  let p := build_loop line_contents [] []
  { s with expression := expression_set s.expression p.1 p.2 }

/-- The constructor `eqn_eval(input_file_path)` on the lines `std::getline`
delivers: `build_expression` on each line in turn, from empty maps. -/
def eqn_eval (lines : List Str) : State :=
  lines.foldl build_expression { expression := [], result := [] }

/-- The loop of `check_unknowns_num` over the characters of `rhs` from position
`i` on, carrying `buffer` and `unknows_num`; `rest = []` is `i == rhs.size() - 1`. -/
def check_loop (result : List (Str × Nat)) : List Char → Str → Nat → Nat
  | [], _, unknows_num => unknows_num
  | c :: rest, buffer, unknows_num =>
    let buffer1 := if c.isAlpha then buffer ++ [c] else buffer
    if (c = '+' ∨ rest = []) ∧ buffer1 ≠ [] then
      check_loop result rest []
        (if find result buffer1 = none then unknows_num + 1 else unknows_num)
    else check_loop result rest buffer1 unknows_num

/-- `check_unknowns_num(rhs)`. -/
def check_unknowns_num (result : List (Str × Nat)) (rhs : Str) : Nat :=
  check_loop result rhs [] 0

/-- `std::isspace` in the "C" locale: space, `\t`, `\n`, `\v`, `\f`, `\r`. -/
def isspace (c : Char) : Bool :=
  c = ' ' || (9 ≤ c.toNat && c.toNat ≤ 13)

/-- The value of a digit character. -/
def digit_value (c : Char) : Nat := c.toNat - 48

/-- The number a string of decimal digits denotes, continuing from `acc`. -/
def decimal_from (acc : Nat) (ds : Str) : Nat :=
  ds.foldl (fun a c => 10 * a + digit_value c) acc

/-- `std::stoi(str)` (base 10, no `pos`): leading white space is skipped, one
sign is accepted, the longest run of digits is converted and what follows it is
ignored; no digit throws `std::invalid_argument`, a value that does not fit an
`int` throws `std::out_of_range`. -/
def stoi (str : Str) : Except Err Int :=
  let s1 := str.dropWhile isspace
  let neg := s1.head? = some '-'
  let s2 := if s1.head? = some '-' ∨ s1.head? = some '+' then s1.tail else s1
  let ds := s2.takeWhile Char.isDigit
  if ds = [] then Except.error Err.invalid_argument
  else
    let n : Int := decimal_from 0 ds
    let z : Int := if neg then -n else n
    if z < -2147483648 ∨ 2147483647 < z then Except.error Err.out_of_range
    else Except.ok z

/-- The body of `if (rhs[i] == '+' || i == rhs.size() - 1)` in `add_result`:
add to `res` the table value of `buffer` when `result` has it, and
`std::stoi(buffer)` (converted to `uint32_t`) when not. -/
def add_token (result : List (Str × Nat)) (buffer : Str) (res : Nat) : Except Err Nat :=
  match find result buffer with
  | some v => Except.ok ((res + v) % 2 ^ 32)
  | none =>
    match stoi buffer with
    | Except.ok z => Except.ok (((res : Int) + z) % 2 ^ 32).toNat
    | Except.error e => Except.error e

/-- The loop of `add_result` over the characters of `rhs` from position `i` on,
carrying `buffer` and `res`. -/
def add_loop (result : List (Str × Nat)) : List Char → Str → Nat → Except Err Nat
  | [], _, res => Except.ok res
  | c :: rest, buffer, res =>
    let buffer1 := if c ≠ '+' then buffer ++ [c] else buffer
    if c = '+' ∨ rest = [] then
      match add_token result buffer1 res with
      | Except.ok res1 => add_loop result rest [] res1
      | Except.error e => Except.error e
    else add_loop result rest buffer1 res

/-- `add_result(variable_name)`.  `expression[variable_name]` on the non-const
map creates an entry with an empty string when the key is absent. -/
def add_result (s : State) (variable_name : Str) : Except Err State :=
  let rhs := (find s.expression variable_name).getD []
  let expression1 :=
    if find s.expression variable_name = none then s.expression ++ [(variable_name, [])]
    else s.expression
  match add_loop s.result rhs [] 0 with
  | Except.ok res =>
    Except.ok { expression := expression1, result := result_set s.result variable_name res }
  | Except.error e => Except.error e

/-- What `operator<<` writes for a `uint32_t`: its decimal digits. -/
def to_decimal (n : Nat) : Str := Nat.toDigits 10 n

/-- The loop of `write_output` over the entries of `result`; `out` is what has
been written to the file so far. -/
def write_loop : List (Str × Nat) → Str → Str
  | [], out => out
  | (name, value) :: rest, out =>
    write_loop rest (out ++ name ++ [' ', '=', ' '] ++ to_decimal value ++ ['\n'])

/-- `write_output(output_file_path)`: the text written to the output file. -/
def write_output (s : State) : Str := write_loop s.result []

/-- The range-`for` of `run_evaluation` over the entries of `expression` still
to visit. -/
def pass_loop : List (Str × Str) → State → Except Err State
  | [], s => Except.ok s
  | (name, rhs) :: rest, s =>
    if find s.result name = none then
      if check_unknowns_num s.result rhs = 0 then
        match add_result s name with
        | Except.ok s1 => pass_loop rest s1
        | Except.error e => Except.error e
      else pass_loop rest s
    else pass_loop rest s

/-- How a call of `run_evaluation` ends. -/
inductive Outcome where
  | done (s : State) (output : Str)
  | thrown (e : Err)
  | running
  deriving DecidableEq, Repr

/-- `run_evaluation(output_file_path)` with at most `passes` iterations of the
`while` loop: `done` with the final maps and the text written, `thrown` when
`add_result` throws, `running` when the loop has not ended after `passes`
iterations. -/
def run_evaluation : Nat → State → Outcome
  | passes, s =>
    if s.result.length < s.expression.length then
      match passes with
      | 0 => Outcome.running
      | passes + 1 =>
        match pass_loop s.expression s with
        | Except.ok s1 => run_evaluation passes s1
        | Except.error e => Outcome.thrown e
    else Outcome.done s (write_output s)

/-- The characters of `s` with every space removed. -/
def strip (s : Str) : Str := s.filter (fun c => c ≠ ' ')

/-- A decimal numeral: a non-empty string of digits. -/
def is_numeral (t : Str) : Bool := !t.isEmpty && t.all Char.isDigit

/-- An all-letter name: a non-empty string of letters. -/
def is_name (t : Str) : Bool := !t.isEmpty && t.all Char.isAlpha

/-- The pieces of a string between its `'+'` characters. -/
def split_plus : Str → List Str
  | [] => [[]]
  | c :: rest =>
    if c = '+' then [] :: split_plus rest
    else
      match split_plus rest with
      | [] => [[c]]
      | t :: ts => (c :: t) :: ts

/-- The tokens of a right-hand side: none when it is empty, and its
`'+'`-separated pieces when it is not. -/
def terms (rhs : Str) : List Str := if rhs = [] then [] else split_plus rhs

/-- Tokens written one after the other with a `'+'` between neighbours. -/
def join_plus : List Str → Str
  | [] => []
  | [t] => t
  | t :: t2 :: ts => t ++ '+' :: join_plus (t2 :: ts)

/-- The sum of a list of values, `none` as soon as one of them is missing. -/
def sum_values : List (Option Nat) → Option Nat
  | [] => some 0
  | none :: _ => none
  | some v :: rest =>
    match sum_values rest with
    | some w => some (v + w)
    | none => none

/-- The value of `name` by substitution, to a depth of at most `depth`
definitions: the sum over the tokens of its definition, a numeral counting for
the number it denotes and any other token for its own value by substitution.
It is `none` when `name` has no definition or when the substitution has not
come down to numerals within `depth` steps. -/
def subst_value (defs : List (Str × Str)) : Nat → Str → Option Nat
  | 0, _ => none
  | depth + 1, name =>
    match find defs name with
    | none => none
    | some rhs =>
      sum_values ((terms rhs).map fun t =>
        if is_numeral t then some (decimal_from 0 t) else subst_value defs depth t)

/-- A definition table the resolver is made for: no name is defined twice (it is
a map), every name is a non-empty string of letters, every token of every
right-hand side is a defined all-letter name or a decimal numeral of at most
`2147483647`, and `rank` goes down along every reference (so that no chain of
references comes back to where it started). -/
def WellFormed (defs : List (Str × Str)) (rank : Str → Nat) : Prop :=
  (defs.map Prod.fst).Nodup
    ∧ (∀ d ∈ defs, is_name d.1 = true)
    ∧ ∀ d ∈ defs, ∀ t ∈ terms d.2,
        (is_name t = true ∧ (find defs t).isSome = true ∧ rank t < rank d.1)
          ∨ (is_numeral t = true ∧ decimal_from 0 t ≤ 2147483647)

instance (defs : List (Str × Str)) (rank : Str → Nat) : Decidable (WellFormed defs rank) := by
  unfold WellFormed
  infer_instance

/-- What one token adds to the count of `check_unknowns_num`: the letters of the
token are looked up, and a token without letters is not looked up at all. -/
def unknown_of (result : List (Str × Nat)) (t : Str) : Nat :=
  if t.filter Char.isAlpha ≠ [] ∧ find result (t.filter Char.isAlpha) = none then 1 else 0

/-- The calls of `add_token` the loop of `add_result` makes, token by token. -/
def add_tokens (result : List (Str × Nat)) : List Str → Nat → Except Err Nat
  | [], res => Except.ok res
  | t :: ts, res =>
    match add_token result t res with
    | Except.ok res1 => add_tokens result ts res1
    | Except.error e => Except.error e

/-- The value of `name` by substitution to the depth its rank allows (0 when
there is none). -/
def exact_value (defs : List (Str × Str)) (rank : Str → Nat) (name : Str) : Nat :=
  (subst_value defs (rank name + 1) name).getD 0

/-- What a token adds to a sum: the number it denotes for a numeral, the value
`tv` gives it for any other token. -/
def contribution (tv : Str → Nat) (t : Str) : Nat :=
  if is_numeral t then decimal_from 0 t else tv t

/-- The state of a run on a well-formed table `defs`: `expression` is `defs`,
the names in `result` are pairwise different, and each is a defined name that
has its value by substitution, modulo `2 ^ 32`. -/
def Inv (defs : List (Str × Str)) (rank : Str → Nat) (s : State) : Prop :=
  s.expression = defs ∧ (s.result.map Prod.fst).Nodup
    ∧ ∀ k v, find s.result k = some v →
        (find defs k).isSome = true ∧ v = exact_value defs rank k % 2 ^ 32

/-- The tokens the loop of `add_result` hands to `add_token`: every token but an
empty one at the very end of the right-hand side (after a last `'+'` the loop
is over before anything is converted). -/
def flushed (toks : List Str) : List Str :=
  if toks.getLast? = some [] then toks.dropLast else toks

/-- The count the specification gives for `check_unknowns_num`: the tokens that
are not decimal numerals and are not names present in the value table. -/
def spec_unknowns (result : List (Str × Nat)) (rhs : Str) : Nat :=
  ((terms rhs).filter fun t => !is_numeral t && (find result t).isNone).length

/-- The state of a run on the table `defs`, whatever the table holds:
`expression` is `defs`, the names in `result` are pairwise different and each
is a name of `defs`. -/
def Sound (defs : List (Str × Str)) (s : State) : Prop :=
  s.expression = defs ∧ (s.result.map Prod.fst).Nodup
    ∧ ∀ k ∈ s.result.map Prod.fst, k ∈ defs.map Prod.fst

/-- What `main` has done when it returns: the text on standard output, whether
the constructor `eqn_eval` has read the input, whether `run_evaluation` has been
called, and the text `write_output` has written (`none` when it has not been
reached). -/
structure MainResult where
  stdout : Str
  parsed : Bool
  evaluated : Bool
  output_file : Option Str
  deriving DecidableEq, Repr

/-- `main(argc, argv)` on an input file with the given lines, `what e` being the
text of `e.what()` for an exception of `std::stoi`; `none` when `run_evaluation`
is still going after `passes` passes. -/
def main (what : Err → Str) (argc : Int) (lines : List Str) (passes : Nat) :
    Option MainResult :=
  if argc ≠ 3 then
    some ⟨" Fail reason: ".toList ++ "Incorrect Input".toList ++ ['\n'], false, false, none⟩
  else
    match run_evaluation passes (eqn_eval lines) with
    | Outcome.done _ out => some ⟨[], true, true, some out⟩
    | Outcome.thrown e => some ⟨" Fail reason: ".toList ++ what e ++ ['\n'], true, true, none⟩
    | Outcome.running => none

/-! Section: The order of strings -/

theorem char_eq_of_toNat_eq (a b : Char) (h : a.toNat = b.toNat) : a = b := by
  apply Char.ext
  apply UInt32.ext
  exact h

theorem str_lt_trans : ∀ (a b c : Str), str_lt a b = true → str_lt b c = true → str_lt a c = true
  | [], [], _, h, _ => by simp [str_lt] at h
  | [], _ :: _, [], _, h => by simp [str_lt] at h
  | [], _ :: _, _ :: _, _, _ => by simp [str_lt]
  | _ :: _, [], _, h, _ => by simp [str_lt] at h
  | _ :: _, _ :: _, [], _, h => by simp [str_lt] at h
  | x :: xs, y :: ys, z :: zs, h1, h2 => by
    simp only [str_lt] at h1 h2 ⊢
    rcases Nat.lt_trichotomy x.toNat y.toNat with hxy | hxy | hxy
    · rcases Nat.lt_trichotomy y.toNat z.toNat with hyz | hyz | hyz
      · simp [Nat.lt_trans hxy hyz]
      · simp [← hyz, hxy]
      · simp [hyz, Nat.lt_asymm hyz] at h2
    · rcases Nat.lt_trichotomy y.toNat z.toNat with hyz | hyz | hyz
      · simp [hxy, hyz]
      · simp only [hxy, hyz, Nat.lt_irrefl, if_false] at h1 h2 ⊢
        exact str_lt_trans xs ys zs h1 h2
      · simp [hyz, Nat.lt_asymm hyz] at h2
    · simp [hxy, Nat.lt_asymm hxy] at h1

theorem str_lt_irrefl : ∀ (a : Str), str_lt a a = false
  | [] => by simp [str_lt]
  | x :: xs => by simp [str_lt, str_lt_irrefl xs]

theorem str_lt_total : ∀ (a b : Str), a ≠ b → str_lt a b = false → str_lt b a = true
  | [], [], h, _ => by simp at h
  | [], _ :: _, _, h => by simp [str_lt] at h
  | _ :: _, [], _, _ => by simp [str_lt]
  | x :: xs, y :: ys, hne, h => by
    simp only [str_lt] at h ⊢
    rcases Nat.lt_trichotomy x.toNat y.toNat with hxy | hxy | hxy
    · simp [hxy] at h
    · have hc : x = y := char_eq_of_toNat_eq x y hxy
      simp only [hxy, Nat.lt_irrefl, if_false] at h ⊢
      exact str_lt_total xs ys (fun e => hne (by rw [hc, e])) h
    · simp [hxy]

/-! Section: The maps -/

theorem find_expression_set (t : List (Str × Str)) (k v x : Str) :
    find (expression_set t k v) x = if x = k then some v else find t x := by
  induction t with
  | nil => simp [expression_set, find]
  | cons e t ih =>
    obtain ⟨k0, v0⟩ := e
    by_cases hk : k = k0
    · subst hk
      by_cases hx : x = k <;> simp [expression_set, find, hx]
    · by_cases hx : x = k0
      · subst hx
        have : ¬ x = k := fun h => hk h.symm
        simp [expression_set, find, hk, this]
      · simp [expression_set, find, hk, hx, ih]

theorem find_result_set (t : List (Str × Nat)) (k : Str) (v : Nat) (x : Str) :
    find (result_set t k v) x = if x = k then some v else find t x := by
  induction t with
  | nil => simp [result_set, find]
  | cons e t ih =>
    obtain ⟨k0, v0⟩ := e
    by_cases hk : k = k0
    · subst hk
      by_cases hx : x = k <;> simp [result_set, find, hx]
    · by_cases hlt : str_lt k k0 = true
      · by_cases hx : x = k <;> simp [result_set, find, hk, hlt, hx]
      · by_cases hx : x = k0
        · subst hx
          have : ¬ x = k := fun h => hk h.symm
          simp [result_set, find, hk, hlt, this]
        · simp [result_set, find, hk, hlt, hx, ih]

theorem expression_set_length (t : List (Str × Str)) (k v : Str) :
    (expression_set t k v).length
      = if find t k = none then t.length + 1 else t.length := by
  induction t with
  | nil => simp [expression_set, find]
  | cons e t ih =>
    obtain ⟨k0, v0⟩ := e
    by_cases hk : k = k0
    · simp [expression_set, find, hk]
    · simp only [expression_set, find, hk, if_false, List.length_cons, ih]
      split <;> rfl

theorem mem_result_set (t : List (Str × Nat)) (k : Str) (v : Nat) (e : Str × Nat)
    (h : e ∈ result_set t k v) : e.1 = k ∨ e ∈ t := by
  induction t with
  | nil =>
    simp only [result_set, List.mem_singleton] at h
    exact Or.inl (by rw [h])
  | cons e0 t ih =>
    obtain ⟨k0, v0⟩ := e0
    by_cases hk : k = k0
    · simp only [result_set, hk, if_true, List.mem_cons] at h
      rcases h with h | h
      · exact Or.inl (by rw [h, hk])
      · exact Or.inr (List.mem_cons_of_mem _ h)
    · by_cases hlt : str_lt k k0 = true
      · simp only [result_set, hk, hlt, if_true, if_false, List.mem_cons] at h
        rcases h with h | h | h
        · exact Or.inl (by rw [h])
        · exact Or.inr (by rw [h]; exact List.mem_cons_self _ _)
        · exact Or.inr (List.mem_cons_of_mem _ h)
      · rw [result_set, if_neg hk, if_neg hlt, List.mem_cons] at h
        rcases h with rfl | h
        · exact Or.inr (List.mem_cons_self _ _)
        · rcases ih h with h1 | h1
          · exact Or.inl h1
          · exact Or.inr (List.mem_cons_of_mem _ h1)

theorem result_set_sorted (t : List (Str × Nat)) (k : Str) (v : Nat)
    (h : t.Pairwise (fun a b => str_lt a.1 b.1 = true)) :
    (result_set t k v).Pairwise (fun a b => str_lt a.1 b.1 = true) := by
  induction t with
  | nil => simp [result_set]
  | cons e0 t ih =>
    obtain ⟨k0, v0⟩ := e0
    rw [List.pairwise_cons] at h
    obtain ⟨h0, ht⟩ := h
    by_cases hk : k = k0
    · simp only [result_set, hk, if_true]
      exact List.pairwise_cons.2 ⟨fun b hb => h0 b hb, ht⟩
    · by_cases hlt : str_lt k k0 = true
      · simp only [result_set, hk, hlt, if_true, if_false]
        refine List.pairwise_cons.2 ⟨fun b hb => ?_, List.pairwise_cons.2 ⟨h0, ht⟩⟩
        rcases List.mem_cons.1 hb with hb | hb
        · rw [hb]; exact hlt
        · exact str_lt_trans _ _ _ hlt (h0 b hb)
      · rw [result_set, if_neg hk, if_neg hlt]
        refine List.pairwise_cons.2 ⟨fun b hb => ?_, ih ht⟩
        rcases mem_result_set t k v b hb with hb | hb
        · rw [hb]
          exact str_lt_total k k0 hk (by simpa using hlt)
        · exact h0 b hb

theorem result_of_sorted (ops : List (Str × Nat)) (t : List (Str × Nat))
    (h : t.Pairwise (fun a b => str_lt a.1 b.1 = true)) :
    (ops.foldl (fun t o => result_set t o.1 o.2) t).Pairwise
      (fun a b => str_lt a.1 b.1 = true) := by
  induction ops generalizing t with
  | nil => exact h
  | cons o ops ih => exact ih _ (result_set_sorted t o.1 o.2 h)

/-! Section: `write_output` -/

theorem write_loop_eq (t : List (Str × Nat)) (out : Str) :
    write_loop t out
      = out ++ (t.map fun e => e.1 ++ [' ', '=', ' '] ++ to_decimal e.2 ++ ['\n']).flatten := by
  induction t generalizing out with
  | nil => simp [write_loop]
  | cons e t ih =>
    obtain ⟨name, value⟩ := e
    simp [write_loop, ih]

/-! Section: `run_evaluation` -/

theorem run_evaluation_stuck (s : State) (hpass : pass_loop s.expression s = Except.ok s)
    (hlt : s.result.length < s.expression.length) (passes : Nat) :
    run_evaluation passes s = Outcome.running := by
  induction passes with
  | zero => simp [run_evaluation, hlt]
  | succ n ih => simp [run_evaluation, hlt, hpass, ih]

/-! Section: Characters, numerals and `std::stoi` -/

theorem digit_range (c : Char) (h : c.isDigit = true) : 48 ≤ c.toNat ∧ c.toNat ≤ 57 := by
  simp only [Char.isDigit, Bool.and_eq_true, decide_eq_true_eq] at h
  exact ⟨h.1, h.2⟩

theorem digit_not_alpha (c : Char) (h : c.isDigit = true) : c.isAlpha = false := by
  have hr := digit_range c h
  simp only [Char.isAlpha, Char.isUpper, Char.isLower, Bool.or_eq_false_iff,
    Bool.and_eq_false_imp, decide_eq_true_eq, decide_eq_false_iff_not]
  constructor
  · intro h3
    have : 65 ≤ c.toNat := h3
    omega
  · intro h3
    have : 97 ≤ c.toNat := h3
    omega

theorem digit_not_space (c : Char) (h : c.isDigit = true) : isspace c = false := by
  have hr := digit_range c h
  have hne : c ≠ ' ' := fun e => by rw [e] at hr; revert hr; decide
  simp only [isspace, Bool.or_eq_false_iff, decide_eq_false_iff_not, Bool.and_eq_false_imp,
    decide_eq_true_eq]
  exact ⟨hne, fun _ => by omega⟩

theorem is_numeral_iff (t : Str) :
    is_numeral t = true ↔ t ≠ [] ∧ ∀ c ∈ t, c.isDigit = true := by
  cases t <;> simp [is_numeral]

theorem is_name_iff (t : Str) :
    is_name t = true ↔ t ≠ [] ∧ ∀ c ∈ t, c.isAlpha = true := by
  cases t <;> simp [is_name]

theorem numeral_not_name (t : Str) (h : is_numeral t = true) : is_name t = false := by
  obtain ⟨hne, hd⟩ := (is_numeral_iff t).1 h
  cases t with
  | nil => exact absurd rfl hne
  | cons c cs =>
    have := digit_not_alpha c (hd c (List.mem_cons_self _ _))
    simp [is_name, this]

theorem stoi_numeral (t : Str) (h : is_numeral t = true) (hmax : decimal_from 0 t ≤ 2147483647) :
    stoi t = Except.ok (decimal_from 0 t : Int) := by
  obtain ⟨hne, hd⟩ := (is_numeral_iff t).1 h
  cases t with
  | nil => exact absurd rfl hne
  | cons c cs =>
    have hc := hd c (List.mem_cons_self _ _)
    have hr := digit_range c hc
    have hsp := digit_not_space c hc
    have hm : c ≠ '-' := fun e => by rw [e] at hr; revert hr; decide
    have hp : c ≠ '+' := fun e => by rw [e] at hr; revert hr; decide
    have htake : List.takeWhile Char.isDigit (c :: cs) = c :: cs :=
      List.takeWhile_eq_self_iff.2 hd
    have h1 : ¬ ((decimal_from 0 (c :: cs) : Int) < -2147483648
        ∨ 2147483647 < (decimal_from 0 (c :: cs) : Int)) := by
      omega
    simp only [stoi, List.dropWhile, hsp, List.head?, Option.some.injEq, hm, hp, or_self,
      if_false, htake, h1]
    simp

theorem add_token_numeral (result : List (Str × Nat)) (t : Str) (res : Nat)
    (h : is_numeral t = true) (hmax : decimal_from 0 t ≤ 2147483647)
    (hfind : find result t = none) :
    add_token result t res = Except.ok ((res + decimal_from 0 t) % 2 ^ 32) := by
  simp only [add_token, hfind, stoi_numeral t h hmax]
  rfl

theorem add_token_found (result : List (Str × Nat)) (t : Str) (res v : Nat)
    (hfind : find result t = some v) :
    add_token result t res = Except.ok ((res + v) % 2 ^ 32) := by
  simp [add_token, hfind]

/-! Section: The loops over a right-hand side -/

theorem add_loop_token_plus (result : List (Str × Nat)) (t rest buffer : Str) (res : Nat)
    (ht : '+' ∉ t) :
    add_loop result (t ++ '+' :: rest) buffer res
      = match add_token result (buffer ++ t) res with
        | Except.ok res1 => add_loop result rest [] res1
        | Except.error e => Except.error e := by
  induction t generalizing buffer with
  | nil => simp [add_loop]
  | cons c t ih =>
    have hc : ¬ c = '+' := fun e => ht (by simp [e])
    have ht1 : '+' ∉ t := fun e => ht (by simp [e])
    simp [add_loop, hc, ih _ ht1]

theorem add_loop_token_end (result : List (Str × Nat)) (t buffer : Str) (res : Nat)
    (ht : '+' ∉ t) (hne : t ≠ []) :
    add_loop result t buffer res = add_token result (buffer ++ t) res := by
  induction t generalizing buffer with
  | nil => exact absurd rfl hne
  | cons c t ih =>
    have hc : ¬ c = '+' := fun e => ht (by simp [e])
    have ht1 : '+' ∉ t := fun e => ht (by simp [e])
    by_cases hnil : t = []
    · subst hnil
      simp only [add_loop, hc, or_true, if_true, ne_eq, not_false_eq_true, false_or]
      cases add_token result (buffer ++ [c]) res <;> rfl
    · simp [add_loop, hc, hnil, ih _ ht1 hnil]

/-! Section: Tokens -/

theorem split_plus_ne_nil (s : Str) : split_plus s ≠ [] := by
  induction s with
  | nil => simp [split_plus]
  | cons c rest ih =>
    by_cases hc : c = '+'
    · simp [split_plus, hc]
    · cases hs : split_plus rest with
      | nil => exact absurd hs ih
      | cons t ts => simp [split_plus, hc, hs]

theorem join_plus_cons_char (c : Char) (t : Str) (ts : List Str) :
    join_plus ((c :: t) :: ts) = c :: join_plus (t :: ts) := by
  cases ts <;> simp [join_plus]

theorem join_plus_split_plus (s : Str) : join_plus (split_plus s) = s := by
  induction s with
  | nil => simp [split_plus, join_plus]
  | cons c rest ih =>
    cases hs : split_plus rest with
    | nil => exact absurd hs (split_plus_ne_nil rest)
    | cons t ts =>
      rw [hs] at ih
      by_cases hc : c = '+'
      · simp [split_plus, hc, hs, join_plus, ih]
      · simp [split_plus, hc, hs, join_plus_cons_char, ih]

theorem join_plus_terms (rhs : Str) : join_plus (terms rhs) = rhs := by
  by_cases h : rhs = []
  · simp [terms, h, join_plus]
  · simp [terms, h, join_plus_split_plus]

theorem plus_not_mem_split_plus (s : Str) : ∀ t ∈ split_plus s, '+' ∉ t := by
  induction s with
  | nil => simp [split_plus]
  | cons c rest ih =>
    cases hs : split_plus rest with
    | nil => exact absurd hs (split_plus_ne_nil rest)
    | cons t0 ts =>
      rw [hs] at ih
      by_cases hc : c = '+'
      · intro t ht
        simp only [split_plus, hc, if_true, hs, List.mem_cons] at ht
        rcases ht with rfl | rfl | ht
        · simp
        · exact ih _ (List.mem_cons_self _ _)
        · exact ih _ (List.mem_cons_of_mem _ ht)
      · intro t ht
        simp only [split_plus, hc, if_false, hs, List.mem_cons] at ht
        rcases ht with rfl | ht
        · have := ih t0 (List.mem_cons_self _ _)
          intro hm
          rcases List.mem_cons.1 hm with h1 | h1
          · exact hc h1.symm
          · exact this h1
        · exact ih _ (List.mem_cons_of_mem _ ht)

theorem plus_not_mem_terms (rhs : Str) : ∀ t ∈ terms rhs, '+' ∉ t := by
  by_cases h : rhs = []
  · simp [terms, h]
  · simpa [terms, h] using plus_not_mem_split_plus rhs

theorem check_loop_token_plus (result : List (Str × Nat)) (t rest buffer : Str) (n : Nat)
    (ht : '+' ∉ t) :
    check_loop result (t ++ '+' :: rest) buffer n
      = check_loop result rest []
          (n + if buffer ++ t.filter Char.isAlpha ≠ []
                  ∧ find result (buffer ++ t.filter Char.isAlpha) = none then 1 else 0) := by
  induction t generalizing buffer with
  | nil =>
    have hplus : Char.isAlpha '+' = false := by decide
    by_cases hb : buffer = []
    · simp [check_loop, hplus, hb]
    · by_cases hf : find result buffer = none <;> simp [check_loop, hplus, hb, hf]
  | cons c t ih =>
    have hc : ¬ c = '+' := fun e => ht (by simp [e])
    have ht1 : '+' ∉ t := fun e => ht (by simp [e])
    by_cases ha : c.isAlpha = true
    · simp [check_loop, hc, ha, ih _ ht1, List.filter_cons]
    · simp [check_loop, hc, ha, ih _ ht1, List.filter_cons]

theorem check_loop_token_end (result : List (Str × Nat)) (t buffer : Str) (n : Nat)
    (ht : '+' ∉ t) (hne : t ≠ [] ∨ buffer = []) :
    check_loop result t buffer n
      = n + if buffer ++ t.filter Char.isAlpha ≠ []
                ∧ find result (buffer ++ t.filter Char.isAlpha) = none then 1 else 0 := by
  induction t generalizing buffer with
  | nil =>
    rcases hne with hne | hne
    · exact absurd rfl hne
    · simp [check_loop, hne]
  | cons c t ih =>
    have hc : ¬ c = '+' := fun e => ht (by simp [e])
    have ht1 : '+' ∉ t := fun e => ht (by simp [e])
    by_cases hnil : t = []
    · subst hnil
      by_cases ha : c.isAlpha = true
      · by_cases hf : find result (buffer ++ [c]) = none <;>
          simp [check_loop, hc, ha, hf, List.filter_cons]
      · by_cases hb : buffer = []
        · simp [check_loop, hc, ha, hb, List.filter_cons]
        · by_cases hf : find result buffer = none <;>
            simp [check_loop, hc, ha, hb, hf, List.filter_cons]
    · by_cases ha : c.isAlpha = true
      · simp [check_loop, hc, hnil, ha, ih _ ht1 (Or.inl hnil), List.filter_cons]
      · simp [check_loop, hc, hnil, ha, ih _ ht1 (Or.inl hnil), List.filter_cons]

theorem check_loop_join_plus (result : List (Str × Nat)) (toks : List Str) (n : Nat)
    (h : ∀ t ∈ toks, '+' ∉ t) :
    check_loop result (join_plus toks) [] n = n + (toks.map (unknown_of result)).sum := by
  induction toks generalizing n with
  | nil => simp [join_plus, check_loop]
  | cons t ts ih =>
    have ht : '+' ∉ t := h t (List.mem_cons_self _ _)
    have hts : ∀ t ∈ ts, '+' ∉ t := fun x hx => h x (List.mem_cons_of_mem _ hx)
    cases ts with
    | nil =>
      rw [join_plus, check_loop_token_end result t [] n ht (Or.inr rfl)]
      simp [unknown_of]
    | cons t2 ts =>
      rw [join_plus, check_loop_token_plus result t _ [] n ht, ih _ hts]
      simp [unknown_of, Nat.add_assoc]

theorem check_unknowns_num_eq (result : List (Str × Nat)) (rhs : Str) :
    check_unknowns_num result rhs = ((terms rhs).map (unknown_of result)).sum := by
  have h := check_loop_join_plus result (terms rhs) 0 (plus_not_mem_terms rhs)
  rw [join_plus_terms] at h
  simpa [check_unknowns_num] using h

theorem add_loop_join_plus (result : List (Str × Nat)) (toks : List Str) (res : Nat)
    (h : ∀ t ∈ toks, '+' ∉ t ∧ t ≠ []) :
    add_loop result (join_plus toks) [] res = add_tokens result toks res := by
  induction toks generalizing res with
  | nil => simp [join_plus, add_loop, add_tokens]
  | cons t ts ih =>
    have ht := h t (List.mem_cons_self _ _)
    have hts : ∀ t ∈ ts, '+' ∉ t ∧ t ≠ [] := fun x hx => h x (List.mem_cons_of_mem _ hx)
    cases ts with
    | nil =>
      rw [join_plus, add_loop_token_end result t [] res ht.1 ht.2]
      simp only [List.nil_append, add_tokens]
      cases add_token result t res <;> rfl
    | cons t2 ts =>
      rw [join_plus, add_loop_token_plus result t _ [] res ht.1]
      simp only [List.nil_append, add_tokens]
      cases hA : add_token result t res with
      | error e => rfl
      | ok r =>
        simp only []
        rw [ih r hts]
        simp [add_tokens]

/-! Section: Lookup and membership -/

theorem find_mem {β : Type} (l : List (Str × β)) (k : Str) (v : β) (h : find l k = some v) :
    (k, v) ∈ l := by
  induction l with
  | nil => simp [find] at h
  | cons e l ih =>
    obtain ⟨k0, v0⟩ := e
    by_cases hk : k = k0
    · simp only [find, hk, if_true, Option.some.injEq] at h
      simp [hk, h]
    · simp only [find, hk, if_false] at h
      exact List.mem_cons_of_mem _ (ih h)

theorem find_eq_none_iff {β : Type} (l : List (Str × β)) (k : Str) :
    find l k = none ↔ k ∉ l.map Prod.fst := by
  induction l with
  | nil => simp [find]
  | cons e l ih =>
    obtain ⟨k0, v0⟩ := e
    rw [List.map_cons, List.mem_cons, not_or]
    by_cases hk : k = k0
    · rw [find, if_pos hk]
      exact ⟨fun h => Option.noConfusion h, fun h => absurd hk h.1⟩
    · rw [find, if_neg hk, ih]
      exact ⟨fun h => ⟨hk, h⟩, fun h => h.2⟩

theorem find_of_mem {β : Type} (l : List (Str × β)) (k : Str) (v : β)
    (hnd : (l.map Prod.fst).Nodup) (h : (k, v) ∈ l) : find l k = some v := by
  induction l with
  | nil => simp at h
  | cons e l ih =>
    obtain ⟨k0, v0⟩ := e
    rw [List.map_cons, List.nodup_cons] at hnd
    rcases List.mem_cons.1 h with h1 | h1
    · simp only [Prod.mk.injEq] at h1
      simp [find, h1.1, h1.2]
    · have hk : k ≠ k0 := fun e => hnd.1 (by
        rw [← e]
        exact List.mem_map.2 ⟨(k, v), h1, rfl⟩)
      simp [find, hk, ih hnd.2 h1]

theorem find_perm {β : Type} (l1 l2 : List (Str × β)) (k : Str)
    (hnd : (l2.map Prod.fst).Nodup) (hp : l1.Perm l2) : find l1 k = find l2 k := by
  have hnd1 : (l1.map Prod.fst).Nodup := (hp.map Prod.fst).nodup_iff.2 hnd
  cases h2 : find l2 k with
  | none =>
    rw [find_eq_none_iff] at h2 ⊢
    exact fun hm => h2 ((hp.map Prod.fst).mem_iff.1 hm)
  | some v => exact find_of_mem l1 k v hnd1 (hp.mem_iff.2 (find_mem l2 k v h2))

theorem result_set_keys_perm (t : List (Str × Nat)) (k : Str) (v : Nat)
    (h : find t k = none) :
    ((result_set t k v).map Prod.fst).Perm (k :: t.map Prod.fst) := by
  induction t with
  | nil => simp [result_set]
  | cons e t ih =>
    obtain ⟨k0, v0⟩ := e
    have hk : ¬ k = k0 := fun e => by simp [find, e] at h
    have ht : find t k = none := by simpa [find, hk] using h
    by_cases hlt : str_lt k k0 = true
    · rw [result_set, if_neg hk, if_pos hlt]
      simp
    · rw [result_set, if_neg hk, if_neg hlt]
      simp only [List.map_cons]
      exact ((ih ht).cons k0).trans (List.Perm.swap k k0 _)

/-! Section: Values by substitution -/

theorem sum_values_map_some (toks : List Str) (f : Str → Option Nat) (g : Str → Nat)
    (h : ∀ t ∈ toks, f t = some (g t)) :
    sum_values (toks.map f) = some ((toks.map g).sum) := by
  induction toks with
  | nil => simp [sum_values]
  | cons t ts ih =>
    have h1 := h t (List.mem_cons_self _ _)
    have h2 := ih (fun x hx => h x (List.mem_cons_of_mem _ hx))
    simp [sum_values, h1, h2]

theorem sum_values_map_mono (toks : List Str) (f g : Str → Option Nat) (w : Nat)
    (h : ∀ t ∈ toks, ∀ v, f t = some v → g t = some v)
    (hf : sum_values (toks.map f) = some w) : sum_values (toks.map g) = some w := by
  induction toks generalizing w with
  | nil => simpa [sum_values] using hf
  | cons t ts ih =>
    cases hft : f t with
    | none => simp [sum_values, hft] at hf
    | some v =>
      cases hrest : sum_values (ts.map f) with
      | none => simp [sum_values, hft, hrest] at hf
      | some u =>
        have h1 := h t (List.mem_cons_self _ _) v hft
        have h2 := ih u (fun x hx => h x (List.mem_cons_of_mem _ hx)) hrest
        simp only [List.map_cons, sum_values, hft, hrest] at hf
        simp only [List.map_cons, sum_values, h1, h2]
        exact hf

theorem subst_value_succ (defs : List (Str × Str)) (depth : Nat) (name : Str) (w : Nat)
    (h : subst_value defs depth name = some w) : subst_value defs (depth + 1) name = some w := by
  induction depth generalizing name w with
  | zero => simp [subst_value] at h
  | succ d ih =>
    rw [subst_value] at h ⊢
    cases hfind : find defs name with
    | none => simp [hfind] at h
    | some rhs =>
      simp only [hfind] at h ⊢
      refine sum_values_map_mono (terms rhs) _ _ w (fun t _ v hv => ?_) h
      by_cases hn : is_numeral t = true
      · simpa [hn] using hv
      · simp only [hn, if_false] at hv ⊢
        exact ih t v hv

theorem subst_value_mono (defs : List (Str × Str)) (d1 d2 : Nat) (name : Str) (w : Nat)
    (hle : d1 ≤ d2) (h : subst_value defs d1 name = some w) :
    subst_value defs d2 name = some w := by
  induction d2 with
  | zero =>
    have : d1 = 0 := Nat.le_zero.1 hle
    rw [this] at h
    exact h
  | succ d ih =>
    rcases Nat.lt_or_ge d1 (d + 1) with hlt | hge
    · exact subst_value_succ defs d name w (ih (Nat.lt_succ_iff.1 hlt))
    · have : d1 = d + 1 := Nat.le_antisymm hle hge
      rw [← this]
      exact h

theorem subst_value_perm (defs order : List (Str × Str)) (depth : Nat) (name : Str)
    (hnd : (defs.map Prod.fst).Nodup) (hp : order.Perm defs) :
    subst_value order depth name = subst_value defs depth name := by
  induction depth generalizing name with
  | zero => simp [subst_value]
  | succ d ih =>
    rw [subst_value, subst_value, find_perm order defs name hnd hp]
    cases find defs name with
    | none => rfl
    | some rhs =>
      simp only []
      congr 1
      exact List.map_congr_left (fun t _ => by rw [ih t])

/-! Section: Well-formed tables -/

theorem name_not_numeral (t : Str) (h : is_name t = true) : is_numeral t = false := by
  cases hn : is_numeral t with
  | false => rfl
  | true =>
    rw [numeral_not_name t hn] at h
    exact absurd h (by decide)

theorem unknown_of_name (result : List (Str × Nat)) (t : Str) (h : is_name t = true) :
    unknown_of result t = if find result t = none then 1 else 0 := by
  obtain ⟨hne, ha⟩ := (is_name_iff t).1 h
  have hf : t.filter Char.isAlpha = t := List.filter_eq_self.2 ha
  simp [unknown_of, hf, hne]

theorem unknown_of_numeral (result : List (Str × Nat)) (t : Str) (h : is_numeral t = true) :
    unknown_of result t = 0 := by
  obtain ⟨_, hd⟩ := (is_numeral_iff t).1 h
  have hf : t.filter Char.isAlpha = [] :=
    List.filter_eq_nil_iff.2 (fun c hc => by simp [digit_not_alpha c (hd c hc)])
  simp [unknown_of, hf]

theorem wf_token_ne_nil (t : Str) (h : is_name t = true ∨ is_numeral t = true) : t ≠ [] := by
  rcases h with h | h
  · exact ((is_name_iff t).1 h).1
  · exact ((is_numeral_iff t).1 h).1

theorem subst_value_of_rank (defs : List (Str × Str)) (rank : Str → Nat)
    (hwf : WellFormed defs rank) (r : Nat) :
    ∀ name rhs, rank name = r → find defs name = some rhs →
      ∀ depth, rank name < depth →
        subst_value defs depth name
          = some (((terms rhs).map (contribution (exact_value defs rank))).sum) := by
  induction r using Nat.strong_induction_on with
  | _ r ih =>
    intro name rhs hr hfind depth hdepth
    obtain ⟨_, _, htok⟩ := hwf
    have hmem : (name, rhs) ∈ defs := find_mem defs name rhs hfind
    cases depth with
    | zero => exact absurd hdepth (Nat.not_lt_zero _)
    | succ d =>
      rw [subst_value]
      simp only [hfind]
      refine sum_values_map_some (terms rhs) _ _ (fun t ht => ?_)
      rcases htok (name, rhs) hmem t ht with ⟨hname, hdef, hrank⟩ | ⟨hnum, _⟩
      · have hnn := name_not_numeral t hname
        obtain ⟨rhs_t, hrhs_t⟩ := Option.isSome_iff_exists.1 hdef
        have hlt : rank t < r := by rw [← hr]; exact hrank
        have h1 := ih (rank t) hlt t rhs_t rfl hrhs_t d (by omega)
        have h2 := ih (rank t) hlt t rhs_t rfl hrhs_t (rank t + 1) (Nat.lt_succ_self _)
        simp only [hnn, contribution, exact_value, h2, Option.getD_some]
        simpa using h1
      · simp [hnum, contribution]

theorem exact_value_eq (defs : List (Str × Str)) (rank : Str → Nat)
    (hwf : WellFormed defs rank) (name rhs : Str) (hfind : find defs name = some rhs) :
    exact_value defs rank name
      = ((terms rhs).map (contribution (exact_value defs rank))).sum := by
  have h := subst_value_of_rank defs rank hwf (rank name) name rhs rfl hfind (rank name + 1)
    (Nat.lt_succ_self _)
  conv_lhs => rw [exact_value, h]
  rfl

theorem subst_value_exact (defs : List (Str × Str)) (rank : Str → Nat)
    (hwf : WellFormed defs rank) (name rhs : Str) (hfind : find defs name = some rhs) :
    subst_value defs (rank name + 1) name = some (exact_value defs rank name)
      ∧ ∀ depth w, subst_value defs depth name = some w → w = exact_value defs rank name := by
  have h := subst_value_of_rank defs rank hwf (rank name) name rhs rfl hfind
  have he := exact_value_eq defs rank hwf name rhs hfind
  have h1 : subst_value defs (rank name + 1) name = some (exact_value defs rank name) := by
    rw [he]
    exact h _ (Nat.lt_succ_self _)
  refine ⟨h1, fun depth w hw => ?_⟩
  have h2 := subst_value_mono defs depth (max depth (rank name + 1)) name w (le_max_left _ _) hw
  have h3 := subst_value_mono defs (rank name + 1) (max depth (rank name + 1)) name _
    (le_max_right _ _) h1
  rw [h2] at h3
  exact Option.some.inj h3

/-! Section: One pass over a well-formed table -/

theorem add_tokens_wf (result : List (Str × Nat)) (tv : Str → Nat) (toks : List Str) (res : Nat)
    (hres : res < 2 ^ 32)
    (hkeys : ∀ k v, find result k = some v → is_name k = true ∧ v = tv k % 2 ^ 32)
    (htoks : ∀ t ∈ toks, (is_name t = true ∧ find result t ≠ none)
        ∨ (is_numeral t = true ∧ decimal_from 0 t ≤ 2147483647)) :
    add_tokens result toks res
      = Except.ok ((res + (toks.map (contribution tv)).sum) % 2 ^ 32) := by
  induction toks generalizing res with
  | nil =>
    simp only [add_tokens, List.map_nil, List.sum_nil, Nat.add_zero]
    rw [Nat.mod_eq_of_lt hres]
  | cons t ts ih =>
    have hts := fun x hx => htoks x (List.mem_cons_of_mem _ hx)
    have hstep : add_token result t res = Except.ok ((res + contribution tv t) % 2 ^ 32) := by
      rcases htoks t (List.mem_cons_self _ _) with ⟨hname, hfound⟩ | ⟨hnum, hmax⟩
      · obtain ⟨v, hv⟩ := Option.ne_none_iff_exists'.1 hfound
        rw [add_token_found result t res v hv, (hkeys t v hv).2]
        simp [contribution, name_not_numeral t hname, Nat.add_mod_mod]
      · have hnone : find result t = none := by
          cases hf : find result t with
          | none => rfl
          | some v =>
            have := (hkeys t v hf).1
            rw [numeral_not_name t hnum] at this
            exact absurd this (by decide)
        rw [add_token_numeral result t res hnum hmax hnone]
        simp [contribution, hnum]
    rw [add_tokens, hstep]
    simp only []
    rw [ih _ (Nat.mod_lt _ (by decide)) hts]
    simp [Nat.mod_add_mod, Nat.add_assoc]

theorem inv_keys (defs : List (Str × Str)) (rank : Str → Nat) (hwf : WellFormed defs rank)
    (s : State) (hs : Inv defs rank s) :
    ∀ k v, find s.result k = some v →
      is_name k = true ∧ v = exact_value defs rank k % 2 ^ 32 := by
  intro k v hkv
  obtain ⟨hdef, hval⟩ := hs.2.2 k v hkv
  obtain ⟨rhs, hrhs⟩ := Option.isSome_iff_exists.1 hdef
  exact ⟨hwf.2.1 (k, rhs) (find_mem defs k rhs hrhs), hval⟩

theorem check_zero_iff (defs : List (Str × Str)) (rank : Str → Nat) (hwf : WellFormed defs rank)
    (result : List (Str × Nat)) (d : Str × Str) (hd : d ∈ defs) :
    check_unknowns_num result d.2 = 0
      ↔ ∀ t ∈ terms d.2, is_name t = true → find result t ≠ none := by
  rw [check_unknowns_num_eq, List.sum_eq_zero_iff]
  constructor
  · intro h t ht hname
    have h0 := h (unknown_of result t) (List.mem_map.2 ⟨t, ht, rfl⟩)
    rw [unknown_of_name result t hname] at h0
    intro hnone
    simp [hnone] at h0
  · intro h x hx
    obtain ⟨t, ht, rfl⟩ := List.mem_map.1 hx
    rcases hwf.2.2 d hd t ht with ⟨hname, _, _⟩ | ⟨hnum, _⟩
    · rw [unknown_of_name result t hname]
      simp [h t ht hname]
    · exact unknown_of_numeral result t hnum

theorem add_result_wf (defs : List (Str × Str)) (rank : Str → Nat) (hwf : WellFormed defs rank)
    (s : State) (hs : Inv defs rank s) (d : Str × Str) (hd : d ∈ defs)
    (hready : ∀ t ∈ terms d.2, is_name t = true → find s.result t ≠ none) :
    add_result s d.1
      = Except.ok ⟨defs, result_set s.result d.1 (exact_value defs rank d.1 % 2 ^ 32)⟩ := by
  have hfind : find defs d.1 = some d.2 := find_of_mem defs d.1 d.2 hwf.1 hd
  have htoks : ∀ t ∈ terms d.2, (is_name t = true ∧ find s.result t ≠ none)
      ∨ (is_numeral t = true ∧ decimal_from 0 t ≤ 2147483647) := fun t ht => by
    rcases hwf.2.2 d hd t ht with ⟨hname, _, _⟩ | hnum
    · exact Or.inl ⟨hname, hready t ht hname⟩
    · exact Or.inr hnum
  have hshape : ∀ t ∈ terms d.2, '+' ∉ t ∧ t ≠ [] := fun t ht =>
    ⟨plus_not_mem_terms d.2 t ht, wf_token_ne_nil t (by
      rcases htoks t ht with h | h
      · exact Or.inl h.1
      · exact Or.inr h.1)⟩
  have hloop : add_loop s.result d.2 [] 0
      = Except.ok (exact_value defs rank d.1 % 2 ^ 32) := by
    conv_lhs => rw [← join_plus_terms d.2]
    rw [add_loop_join_plus s.result (terms d.2) 0 hshape,
      add_tokens_wf s.result (exact_value defs rank) (terms d.2) 0 (by decide)
        (inv_keys defs rank hwf s hs) htoks,
      exact_value_eq defs rank hwf d.1 d.2 hfind]
    simp
  simp [add_result, hs.1, hfind, hloop]

theorem inv_add (defs : List (Str × Str)) (rank : Str → Nat)
    (s : State) (hs : Inv defs rank s) (d : Str × Str) (hd : d ∈ defs)
    (hnone : find s.result d.1 = none) :
    Inv defs rank ⟨defs, result_set s.result d.1 (exact_value defs rank d.1 % 2 ^ 32)⟩ := by
  refine ⟨rfl, ?_, fun k v hkv => ?_⟩
  · refine (result_set_keys_perm s.result d.1 _ hnone).nodup_iff.2 ?_
    exact List.nodup_cons.2 ⟨(find_eq_none_iff s.result d.1).1 hnone, hs.2.1⟩
  · simp only [find_result_set] at hkv
    by_cases hk : k = d.1
    · rw [if_pos hk] at hkv
      have hv : exact_value defs rank d.1 % 2 ^ 32 = v := Option.some.inj hkv
      refine ⟨?_, by rw [hk, hv]⟩
      rw [hk, Option.isSome_iff_exists]
      cases hf : find defs d.1 with
      | some rhs => exact ⟨rhs, rfl⟩
      | none =>
        exact absurd (List.mem_map.2 ⟨d, hd, rfl⟩) ((find_eq_none_iff defs d.1).1 hf)
    · rw [if_neg hk] at hkv
      exact hs.2.2 k v hkv

theorem pass_loop_wf (defs : List (Str × Str)) (rank : Str → Nat) (hwf : WellFormed defs rank)
    (l : List (Str × Str)) (hl : ∀ d ∈ l, d ∈ defs) (s : State) (hs : Inv defs rank s) :
    ∃ s1, pass_loop l s = Except.ok s1 ∧ Inv defs rank s1
      ∧ (∀ k, find s.result k ≠ none → find s1.result k ≠ none)
      ∧ ∀ d ∈ l, (∀ t ∈ terms d.2, is_name t = true → find s.result t ≠ none) →
          find s1.result d.1 ≠ none := by
  induction l generalizing s with
  | nil => exact ⟨s, rfl, hs, fun _ h => h, fun d hd => absurd hd (List.not_mem_nil d)⟩
  | cons d l ih =>
    have hd : d ∈ defs := hl d (List.mem_cons_self _ _)
    have hl1 : ∀ e ∈ l, e ∈ defs := fun e he => hl e (List.mem_cons_of_mem _ he)
    obtain ⟨name, rhs⟩ := d
    by_cases hnone : find s.result name = none
    · by_cases hcheck : check_unknowns_num s.result rhs = 0
      · have hready := (check_zero_iff defs rank hwf s.result (name, rhs) hd).1 hcheck
        have hadd := add_result_wf defs rank hwf s hs (name, rhs) hd hready
        have hinv := inv_add defs rank s hs (name, rhs) hd hnone
        obtain ⟨s1, hpass, hinv1, hmono1, hprog1⟩ := ih hl1 _ hinv
        have hstep : ∀ k, find s.result k ≠ none →
            find (result_set s.result name (exact_value defs rank name % 2 ^ 32)) k ≠ none := by
          intro k hk
          rw [find_result_set]
          by_cases hkn : k = name
          · simp [hkn]
          · simpa [hkn] using hk
        refine ⟨s1, ?_, hinv1, fun k hk => hmono1 k (hstep k hk), fun e he hre => ?_⟩
        · simp only [pass_loop, hnone, hcheck, if_true]
          rw [hadd]
          exact hpass
        · rcases List.mem_cons.1 he with rfl | he
          · exact hmono1 name (by simp [find_result_set])
          · exact hprog1 e he (fun t ht hn => hstep t (hre t ht hn))
      · obtain ⟨s1, hpass, hinv1, hmono1, hprog1⟩ := ih hl1 s hs
        refine ⟨s1, ?_, hinv1, hmono1, fun e he hre => ?_⟩
        · simp only [pass_loop, hnone, hcheck, if_true, if_false]
          exact hpass
        · rcases List.mem_cons.1 he with rfl | he
          · exact absurd ((check_zero_iff defs rank hwf s.result (name, rhs) hd).2 hre) hcheck
          · exact hprog1 e he hre
    · obtain ⟨s1, hpass, hinv1, hmono1, hprog1⟩ := ih hl1 s hs
      refine ⟨s1, ?_, hinv1, hmono1, fun e he hre => ?_⟩
      · simp only [pass_loop, hnone, if_false]
        exact hpass
      · rcases List.mem_cons.1 he with rfl | he
        · exact hmono1 name hnone
        · exact hprog1 e he hre

/-! Section: Progress and termination on a well-formed table -/

theorem exists_ready (defs : List (Str × Str)) (rank : Str → Nat) (hwf : WellFormed defs rank)
    (result : List (Str × Nat)) (r : Nat) :
    ∀ d ∈ defs, rank d.1 = r → find result d.1 = none →
      ∃ e ∈ defs, find result e.1 = none
        ∧ ∀ t ∈ terms e.2, is_name t = true → find result t ≠ none := by
  induction r using Nat.strong_induction_on with
  | _ r ih =>
    intro d hd hr hnone
    by_cases hready : ∀ t ∈ terms d.2, is_name t = true → find result t ≠ none
    · exact ⟨d, hd, hnone, hready⟩
    · simp only [not_forall] at hready
      obtain ⟨t, ht, hname, hfound⟩ := hready
      have htnone : find result t = none := not_not.1 hfound
      rcases hwf.2.2 d hd t ht with ⟨_, hdef, hrank⟩ | ⟨hnum, _⟩
      · obtain ⟨rhs_t, hrhs_t⟩ := Option.isSome_iff_exists.1 hdef
        have hmem : (t, rhs_t) ∈ defs := find_mem defs t rhs_t hrhs_t
        exact ih (rank t) (by rw [← hr]; exact hrank) (t, rhs_t) hmem rfl htnone
      · rw [numeral_not_name t hnum] at hname
        exact absurd hname (by decide)

theorem inv_length_le (defs : List (Str × Str)) (rank : Str → Nat) (s : State)
    (hs : Inv defs rank s) : s.result.length ≤ defs.length := by
  have hsub : s.result.map Prod.fst ⊆ defs.map Prod.fst := by
    intro k hk
    by_contra hnot
    cases hf : find s.result k with
    | none => exact (find_eq_none_iff s.result k).1 hf hk
    | some v =>
      have hdef := (hs.2.2 k v hf).1
      rw [(find_eq_none_iff defs k).2 hnot] at hdef
      exact absurd hdef (by decide)
  have := (List.subperm_of_subset hs.2.1 hsub).length_le
  simpa using this

theorem inv_all_resolved (defs : List (Str × Str)) (rank : Str → Nat) (s : State)
    (hs : Inv defs rank s) (hlen : ¬ s.result.length < defs.length) :
    ∀ d ∈ defs, find s.result d.1 ≠ none := by
  have hsub : s.result.map Prod.fst ⊆ defs.map Prod.fst := by
    intro k hk
    by_contra hnot
    cases hf : find s.result k with
    | none => exact (find_eq_none_iff s.result k).1 hf hk
    | some v =>
      have hdef := (hs.2.2 k v hf).1
      rw [(find_eq_none_iff defs k).2 hnot] at hdef
      exact absurd hdef (by decide)
  have hperm := (List.subperm_of_subset hs.2.1 hsub).perm_of_length_le (by
    simp only [List.length_map]
    omega)
  intro d hd hnone
  exact (find_eq_none_iff s.result d.1).1 hnone
    (hperm.mem_iff.2 (List.mem_map.2 ⟨d, hd, rfl⟩))

theorem exists_unresolved (defs : List (Str × Str)) (rank : Str → Nat)
    (hwf : WellFormed defs rank) (s : State) (hlen : s.result.length < defs.length) :
    ∃ d ∈ defs, find s.result d.1 = none := by
  by_contra hnot
  simp only [not_exists, not_and] at hnot
  have hsub : defs.map Prod.fst ⊆ s.result.map Prod.fst := by
    intro k hk
    obtain ⟨d, hd, rfl⟩ := List.mem_map.1 hk
    by_contra hk1
    exact hnot d hd ((find_eq_none_iff s.result d.1).2 hk1)
  have hle : defs.length ≤ s.result.length := by
    simpa using (List.subperm_of_subset hwf.1 hsub).length_le
  omega

theorem length_lt_of_new_key (r1 r2 : List (Str × Nat)) (k : Str)
    (hnd1 : (r1.map Prod.fst).Nodup) (hmono : ∀ x, find r1 x ≠ none → find r2 x ≠ none)
    (hk1 : find r1 k = none) (hk2 : find r2 k ≠ none) : r1.length < r2.length := by
  have hnd : (k :: r1.map Prod.fst).Nodup :=
    List.nodup_cons.2 ⟨(find_eq_none_iff r1 k).1 hk1, hnd1⟩
  have hsub : (k :: r1.map Prod.fst) ⊆ r2.map Prod.fst := by
    intro x hx
    by_contra hnot
    have hx2 : find r2 x = none := (find_eq_none_iff r2 x).2 hnot
    rcases List.mem_cons.1 hx with rfl | hx1
    · exact hk2 hx2
    · exact hmono x (fun h => (find_eq_none_iff r1 x).1 h hx1) hx2
  have := (List.subperm_of_subset hnd hsub).length_le
  simp only [List.length_cons, List.length_map] at this
  omega

theorem run_evaluation_exit (passes : Nat) (s : State)
    (hlen : ¬ s.result.length < s.expression.length) :
    run_evaluation passes s = Outcome.done s (write_output s) := by
  cases passes <;> simp [run_evaluation, hlen]

theorem run_evaluation_pass (passes : Nat) (s s1 : State)
    (hlen : s.result.length < s.expression.length)
    (hpass : pass_loop s.expression s = Except.ok s1) :
    run_evaluation (passes + 1) s = run_evaluation passes s1 := by
  simp [run_evaluation, hlen, hpass]

theorem run_evaluation_wf (defs : List (Str × Str)) (rank : Str → Nat)
    (hwf : WellFormed defs rank) (passes : Nat) :
    ∀ s, Inv defs rank s → defs.length - s.result.length ≤ passes →
      ∃ s1, run_evaluation passes s = Outcome.done s1 (write_output s1) ∧ Inv defs rank s1
        ∧ ∀ d ∈ defs, find s1.result d.1 ≠ none := by
  induction passes with
  | zero =>
    intro s hs hfuel
    have hlen : ¬ s.result.length < defs.length := by omega
    exact ⟨s, run_evaluation_exit 0 s (by rw [hs.1]; exact hlen), hs,
      inv_all_resolved defs rank s hs hlen⟩
  | succ n ih =>
    intro s hs hfuel
    by_cases hlen : s.result.length < defs.length
    · obtain ⟨s1, hpass, hinv1, hmono, hprog⟩ :=
        pass_loop_wf defs rank hwf defs (fun _ h => h) s hs
      obtain ⟨d, hd, hnone⟩ := exists_unresolved defs rank hwf s hlen
      obtain ⟨e, he, henone, heready⟩ :=
        exists_ready defs rank hwf s.result (rank d.1) d hd rfl hnone
      have hgrow : s.result.length < s1.result.length :=
        length_lt_of_new_key s.result s1.result e.1 hs.2.1 hmono henone (hprog e he heready)
      obtain ⟨s2, hrun, hinv2, hall⟩ := ih s1 hinv1 (by omega)
      refine ⟨s2, ?_, hinv2, hall⟩
      rw [run_evaluation_pass n s s1 (by rw [hs.1]; exact hlen) (by rw [hs.1]; exact hpass)]
      exact hrun
    · exact ⟨s, run_evaluation_exit _ s (by rw [hs.1]; exact hlen), hs,
        inv_all_resolved defs rank s hs hlen⟩

theorem run_evaluation_more_passes (n m : Nat) (s s1 : State) (out : Str)
    (h : run_evaluation n s = Outcome.done s1 out) (hle : n ≤ m) :
    run_evaluation m s = Outcome.done s1 out := by
  induction n generalizing m s with
  | zero =>
    by_cases hlen : s.result.length < s.expression.length
    · simp [run_evaluation, hlen] at h
    · rw [run_evaluation_exit _ s hlen] at h ⊢
      exact h
  | succ n ih =>
    by_cases hlen : s.result.length < s.expression.length
    · cases m with
      | zero => exact absurd hle (Nat.not_succ_le_zero n)
      | succ m =>
        cases hp : pass_loop s.expression s with
        | error e => simp [run_evaluation, hlen, hp] at h
        | ok s2 =>
          rw [run_evaluation_pass _ s s2 hlen hp] at h ⊢
          exact ih m s2 h (Nat.le_of_succ_le_succ hle)
    · rw [run_evaluation_exit _ s hlen] at h ⊢
      exact h

/-! Section: The order of the table and of the lines -/

theorem wellFormed_perm (defs order : List (Str × Str)) (rank : Str → Nat)
    (hwf : WellFormed defs rank) (hp : order.Perm defs) : WellFormed order rank := by
  obtain ⟨hnd, hnames, htok⟩ := hwf
  refine ⟨(hp.map Prod.fst).nodup_iff.2 hnd, fun d hd => hnames d (hp.mem_iff.1 hd),
    fun d hd t ht => ?_⟩
  rcases htok d (hp.mem_iff.1 hd) t ht with ⟨h1, h2, h3⟩ | h
  · exact Or.inl ⟨h1, by rw [find_perm order defs t hnd hp]; exact h2, h3⟩
  · exact Or.inr h

theorem exact_value_perm (defs order : List (Str × Str)) (rank : Str → Nat) (name : Str)
    (hnd : (defs.map Prod.fst).Nodup) (hp : order.Perm defs) :
    exact_value order rank name = exact_value defs rank name := by
  rw [exact_value, exact_value, subst_value_perm defs order _ name hnd hp]

theorem run_evaluation_table (defs : List (Str × Str)) (rank : Str → Nat)
    (hwf : WellFormed defs rank) (order : List (Str × Str)) (hp : order.Perm defs) :
    ∃ s, (∀ passes, order.length ≤ passes →
          run_evaluation passes ⟨order, []⟩ = Outcome.done s (write_output s))
      ∧ s.expression = order
      ∧ ∀ name, find s.result name
          = (find defs name).map fun _ => exact_value defs rank name % 2 ^ 32 := by
  have hwf1 := wellFormed_perm defs order rank hwf hp
  have hinv0 : Inv order rank ⟨order, []⟩ :=
    ⟨rfl, List.nodup_nil, fun k v h => by simp [find] at h⟩
  obtain ⟨s, hrun, hinv, hall⟩ :=
    run_evaluation_wf order rank hwf1 order.length ⟨order, []⟩ hinv0 (by simp)
  refine ⟨s, fun passes hle => run_evaluation_more_passes _ _ _ _ _ hrun hle, hinv.1,
    fun name => ?_⟩
  cases hdef : find defs name with
  | none =>
    cases hres : find s.result name with
    | none => rfl
    | some v =>
      have h1 := (hinv.2.2 name v hres).1
      rw [find_perm order defs name hwf.1 hp, hdef] at h1
      exact absurd h1 (by decide)
  | some rhs =>
    have hmem : (name, rhs) ∈ order := hp.mem_iff.2 (find_mem defs name rhs hdef)
    cases hres : find s.result name with
    | none => exact absurd hres (hall (name, rhs) hmem)
    | some v =>
      rw [(hinv.2.2 name v hres).2, exact_value_perm defs order rank name hwf.1 hp]
      rfl

theorem expression_set_new (t : List (Str × Str)) (k v : Str) (h : k ∉ t.map Prod.fst) :
    expression_set t k v = t ++ [(k, v)] := by
  induction t with
  | nil => rfl
  | cons e t ih =>
    obtain ⟨k0, v0⟩ := e
    rw [List.map_cons, List.mem_cons, not_or] at h
    rw [expression_set, if_neg h.1, ih h.2]
    rfl

theorem foldl_build_expression (lines : List Str) (acc : List (Str × Str))
    (r : List (Str × Nat))
    (hnd : ((acc ++ lines.map fun l => build_loop l [] []).map Prod.fst).Nodup) :
    lines.foldl build_expression ⟨acc, r⟩
      = ⟨acc ++ lines.map fun l => build_loop l [] [], r⟩ := by
  induction lines generalizing acc with
  | nil => simp
  | cons l ls ih =>
    have hk : (build_loop l [] []).1 ∉ acc.map Prod.fst := by
      simp only [List.map_cons, List.map_append, List.nodup_append] at hnd
      intro hm
      exact hnd.2.2 hm (List.mem_cons_self _ _)
    have hstep : build_expression ⟨acc, r⟩ l = ⟨acc ++ [build_loop l [] []], r⟩ := by
      simp only [build_expression]
      rw [expression_set_new acc _ _ hk]
    rw [List.foldl_cons, hstep, ih]
    · simp
    · simpa using hnd

theorem eqn_eval_of_nodup (lines : List Str)
    (hnd : ((lines.map fun l => build_loop l [] []).map Prod.fst).Nodup) :
    eqn_eval lines = ⟨lines.map fun l => build_loop l [] [], []⟩ := by
  have h := foldl_build_expression lines [] [] (by simpa using hnd)
  simpa [eqn_eval] using h

/-! Section: `build_expression` -/

theorem build_loop_append (a b buffer variable_name : Str) :
    build_loop (a ++ b) buffer variable_name
      = build_loop b (build_loop a buffer variable_name).2 (build_loop a buffer variable_name).1 := by
  induction a generalizing buffer variable_name with
  | nil => simp [build_loop]
  | cons c a ih =>
    by_cases h1 : c = '='
    · simp [build_loop, h1, ih]
    · by_cases h2 : c = ' ' <;> simp [build_loop, h1, h2, ih]

theorem build_loop_no_eq (l buffer variable_name : Str) (hl : '=' ∉ l) :
    build_loop l buffer variable_name = (variable_name, buffer ++ strip l) := by
  induction l generalizing buffer with
  | nil => simp [build_loop, strip]
  | cons c l ih =>
    have hc : ¬ c = '=' := fun h => hl (by simp [h])
    have hl1 : '=' ∉ l := fun h => hl (by simp [h])
    by_cases h2 : c = ' '
    · simp [build_loop, hc, h2, ih _ hl1, strip]
    · simp [build_loop, hc, h2, ih _ hl1, strip, List.filter_cons]

theorem build_loop_split (m r buffer variable_name : Str) (hm : '=' ∉ m) (hr : '=' ∉ r) :
    build_loop (m ++ '=' :: r) buffer variable_name = (buffer ++ strip m, strip r) := by
  rw [build_loop_append, build_loop_no_eq m _ _ hm]
  simp [build_loop, build_loop_no_eq r _ _ hr]

theorem build_loop_ends_eq (q buffer variable_name : Str) :
    (build_loop (q ++ ['=']) buffer variable_name).2 = [] := by
  rw [build_loop_append]
  simp [build_loop]

theorem space_not_mem_strip (l : Str) : ' ' ∉ strip l := by
  simp [strip, List.mem_filter]

/-! Section: `add_result` on any right-hand side -/

theorem flushed_cons_cons (t t2 : Str) (ts : List Str) :
    flushed (t :: t2 :: ts) = t :: flushed (t2 :: ts) := by
  simp only [flushed, List.getLast?_cons_cons, List.dropLast_cons₂]
  split <;> rfl

theorem add_loop_join_plus_flushed (result : List (Str × Nat)) (toks : List Str) (res : Nat)
    (h : ∀ t ∈ toks, '+' ∉ t) :
    add_loop result (join_plus toks) [] res = add_tokens result (flushed toks) res := by
  induction toks generalizing res with
  | nil => simp [join_plus, add_loop, flushed, add_tokens]
  | cons t ts ih =>
    have ht := h t (List.mem_cons_self _ _)
    have hts : ∀ t ∈ ts, '+' ∉ t := fun x hx => h x (List.mem_cons_of_mem _ hx)
    cases ts with
    | nil =>
      by_cases hnil : t = []
      · subst hnil
        simp [join_plus, add_loop, flushed, add_tokens]
      · rw [join_plus, add_loop_token_end result t [] res ht hnil]
        have hf : flushed [t] = [t] := by simp [flushed, hnil]
        rw [hf]
        simp only [List.nil_append, add_tokens]
        cases add_token result t res <;> rfl
    | cons t2 ts =>
      rw [join_plus, add_loop_token_plus result t _ [] res ht, flushed_cons_cons]
      simp only [List.nil_append, add_tokens]
      cases hA : add_token result t res with
      | error e => rfl
      | ok r =>
        simp only []
        exact ih r hts

theorem add_loop_eq_add_tokens (result : List (Str × Nat)) (rhs : Str) (res : Nat) :
    add_loop result rhs [] res = add_tokens result (flushed (terms rhs)) res := by
  have h := add_loop_join_plus_flushed result (terms rhs) res (plus_not_mem_terms rhs)
  rw [join_plus_terms] at h
  exact h

theorem add_token_throws (result : List (Str × Nat)) (t : Str) (res : Nat)
    (hfind : find result t = none) (hstoi : ∀ z, stoi t ≠ Except.ok z) :
    ∃ e, add_token result t res = Except.error e := by
  cases hs : stoi t with
  | ok z => exact absurd hs (hstoi z)
  | error e => exact ⟨e, by simp [add_token, hfind, hs]⟩

theorem add_tokens_throws (result : List (Str × Nat)) (toks : List Str) (t : Str) (res : Nat)
    (ht : t ∈ toks) (hfind : find result t = none) (hstoi : ∀ z, stoi t ≠ Except.ok z) :
    ∃ e, add_tokens result toks res = Except.error e := by
  induction toks generalizing res with
  | nil => exact absurd ht (List.not_mem_nil t)
  | cons x xs ih =>
    cases hx : add_token result x res with
    | error e => exact ⟨e, by simp [add_tokens, hx]⟩
    | ok r =>
      rcases List.mem_cons.1 ht with rfl | hmem
      · obtain ⟨e, he⟩ := add_token_throws result t res hfind hstoi
        rw [he] at hx
        exact Except.noConfusion hx
      · obtain ⟨e, he⟩ := ih r hmem
        exact ⟨e, by simp [add_tokens, hx, he]⟩

theorem add_result_throws (s : State) (name rhs t : Str)
    (hrhs : find s.expression name = some rhs) (ht : t ∈ flushed (terms rhs))
    (hfind : find s.result t = none) (hstoi : ∀ z, stoi t ≠ Except.ok z) :
    ∃ e, add_result s name = Except.error e := by
  obtain ⟨e, he⟩ := add_tokens_throws s.result (flushed (terms rhs)) t 0 ht hfind hstoi
  refine ⟨e, ?_⟩
  simp [add_result, hrhs, add_loop_eq_add_tokens, he]

theorem add_result_ok (s s1 : State) (name : Str) (h : add_result s name = Except.ok s1) :
    (∃ v, s1.result = result_set s.result name v)
      ∧ (find s.expression name ≠ none → s1.expression = s.expression) := by
  cases hl : add_loop s.result ((find s.expression name).getD []) [] 0 with
  | error e => simp [add_result, hl] at h
  | ok res =>
    simp only [add_result, hl, Except.ok.injEq] at h
    subst h
    exact ⟨⟨res, rfl⟩, fun hne => by simp [hne]⟩

theorem add_result_frame (s s1 : State) (name : Str) (h : add_result s name = Except.ok s1) :
    ∀ k, k ≠ name → find s1.result k = find s.result k := by
  obtain ⟨⟨v, hv⟩, _⟩ := add_result_ok s s1 name h
  intro k hk
  rw [hv, find_result_set, if_neg hk]

theorem pass_loop_keeps (l : List (Str × Str)) (s s1 : State)
    (h : pass_loop l s = Except.ok s1) :
    ∀ k v, find s.result k = some v → find s1.result k = some v := by
  induction l generalizing s with
  | nil =>
    simp only [pass_loop, Except.ok.injEq] at h
    subst h
    exact fun _ _ hk => hk
  | cons d l ih =>
    obtain ⟨name, rhs⟩ := d
    by_cases hnone : find s.result name = none
    · by_cases hcheck : check_unknowns_num s.result rhs = 0
      · simp only [pass_loop, hnone, hcheck, if_true] at h
        cases ha : add_result s name with
        | error e =>
          rw [ha] at h
          exact Except.noConfusion h
        | ok s2 =>
          rw [ha] at h
          intro k v hk
          have hne : k ≠ name := fun e => by
            rw [e, hnone] at hk
            exact Option.noConfusion hk
          exact ih s2 h k v (by rw [add_result_frame s s2 name ha k hne]; exact hk)
      · simp only [pass_loop, hnone, hcheck, if_true, if_false] at h
        exact ih s h
    · simp only [pass_loop, hnone, if_false] at h
      exact ih s h

theorem sound_add (defs : List (Str × Str)) (s s1 : State) (d : Str × Str)
    (hs : Sound defs s) (hd : d ∈ defs) (hnone : find s.result d.1 = none)
    (h : add_result s d.1 = Except.ok s1) : Sound defs s1 := by
  obtain ⟨⟨v, hv⟩, hexp⟩ := add_result_ok s s1 d.1 h
  have hkey : d.1 ∈ defs.map Prod.fst := List.mem_map.2 ⟨d, hd, rfl⟩
  have hfd : find s.expression d.1 ≠ none := fun hn => by
    rw [hs.1] at hn
    exact (find_eq_none_iff defs d.1).1 hn hkey
  have hperm := result_set_keys_perm s.result d.1 v hnone
  refine ⟨by rw [hexp hfd, hs.1], ?_, fun k hk => ?_⟩
  · rw [hv]
    exact hperm.nodup_iff.2 (List.nodup_cons.2 ⟨(find_eq_none_iff s.result d.1).1 hnone, hs.2.1⟩)
  · rw [hv] at hk
    rcases List.mem_cons.1 (hperm.mem_iff.1 hk) with rfl | hk1
    · exact hkey
    · exact hs.2.2 k hk1

theorem pass_loop_sound (defs : List (Str × Str)) (l : List (Str × Str))
    (hl : ∀ d ∈ l, d ∈ defs) (s s1 : State) (hs : Sound defs s)
    (h : pass_loop l s = Except.ok s1) : Sound defs s1 := by
  induction l generalizing s with
  | nil =>
    simp only [pass_loop, Except.ok.injEq] at h
    subst h
    exact hs
  | cons d l ih =>
    have hd : d ∈ defs := hl d (List.mem_cons_self _ _)
    have hl1 : ∀ e ∈ l, e ∈ defs := fun e he => hl e (List.mem_cons_of_mem _ he)
    obtain ⟨name, rhs⟩ := d
    by_cases hnone : find s.result name = none
    · by_cases hcheck : check_unknowns_num s.result rhs = 0
      · simp only [pass_loop, hnone, hcheck, if_true] at h
        cases ha : add_result s name with
        | error e =>
          rw [ha] at h
          exact Except.noConfusion h
        | ok s2 =>
          rw [ha] at h
          exact ih hl1 s2 (sound_add defs s s2 (name, rhs) hs hd hnone ha) h
      · simp only [pass_loop, hnone, hcheck, if_true, if_false] at h
        exact ih hl1 s hs h
    · simp only [pass_loop, hnone, if_false] at h
      exact ih hl1 s hs h

theorem sound_length_le (defs : List (Str × Str)) (s : State) (hs : Sound defs s) :
    s.result.length ≤ defs.length := by
  have := (List.subperm_of_subset hs.2.1 hs.2.2).length_le
  simpa using this

theorem sound_exit (defs : List (Str × Str)) (s : State) (hs : Sound defs s)
    (hlen : ¬ s.result.length < defs.length) :
    ∀ k, k ∈ s.result.map Prod.fst ↔ k ∈ defs.map Prod.fst := by
  have hperm := (List.subperm_of_subset hs.2.1 hs.2.2).perm_of_length_le (by
    simp only [List.length_map]
    omega)
  exact fun k => hperm.mem_iff

theorem run_evaluation_sound (defs : List (Str × Str)) (passes : Nat) (s s1 : State) (out : Str)
    (hs : Sound defs s) (h : run_evaluation passes s = Outcome.done s1 out) :
    Sound defs s1 ∧ ¬ s1.result.length < defs.length
      ∧ (∀ k v, find s.result k = some v → find s1.result k = some v)
      ∧ out = write_output s1 := by
  induction passes generalizing s with
  | zero =>
    by_cases hlen : s.result.length < s.expression.length
    · simp [run_evaluation, hlen] at h
    · rw [run_evaluation_exit _ s hlen] at h
      simp only [Outcome.done.injEq] at h
      obtain ⟨h1, h2⟩ := h
      subst h1
      exact ⟨hs, by rw [← hs.1]; exact hlen, fun _ _ hk => hk, h2.symm⟩
  | succ n ih =>
    by_cases hlen : s.result.length < s.expression.length
    · cases hp : pass_loop s.expression s with
      | error e => simp [run_evaluation, hlen, hp] at h
      | ok s2 =>
        rw [run_evaluation_pass _ s s2 hlen hp] at h
        have hs2 : Sound defs s2 :=
          pass_loop_sound defs s.expression (fun d hd => by rw [← hs.1]; exact hd) s s2 hs hp
        obtain ⟨h1, h2, h3, h4⟩ := ih s2 hs2 h
        exact ⟨h1, h2, fun k v hk => h3 k v (pass_loop_keeps _ s s2 hp k v hk), h4⟩
    · rw [run_evaluation_exit _ s hlen] at h
      simp only [Outcome.done.injEq] at h
      obtain ⟨h1, h2⟩ := h
      subst h1
      exact ⟨hs, by rw [← hs.1]; exact hlen, fun _ _ hk => hk, h2.symm⟩

theorem pass_loop_never_adds (defs : List (Str × Str)) (name rhs t : Str)
    (hrhs : find defs name = some rhs) (ht : t ∈ flushed (terms rhs))
    (hundef : find defs t = none) (hstoi : ∀ z, stoi t ≠ Except.ok z)
    (l : List (Str × Str)) (hl : ∀ d ∈ l, d ∈ defs) (s s1 : State) (hs : Sound defs s)
    (hnone : find s.result name = none) (h : pass_loop l s = Except.ok s1) :
    find s1.result name = none := by
  induction l generalizing s with
  | nil =>
    simp only [pass_loop, Except.ok.injEq] at h
    subst h
    exact hnone
  | cons d l ih =>
    have hd : d ∈ defs := hl d (List.mem_cons_self _ _)
    have hl1 : ∀ e ∈ l, e ∈ defs := fun e he => hl e (List.mem_cons_of_mem _ he)
    obtain ⟨n, r⟩ := d
    by_cases hn : find s.result n = none
    · by_cases hcheck : check_unknowns_num s.result r = 0
      · simp only [pass_loop, hn, hcheck, if_true] at h
        cases ha : add_result s n with
        | error e =>
          rw [ha] at h
          exact Except.noConfusion h
        | ok s2 =>
          rw [ha] at h
          have hne : name ≠ n := fun e => by
            have htnone : find s.result t = none :=
              (find_eq_none_iff s.result t).2 (fun hm =>
                (find_eq_none_iff defs t).1 hundef (hs.2.2 t hm))
            obtain ⟨e1, he1⟩ := add_result_throws s name rhs t (by rw [hs.1]; exact hrhs) ht
              htnone hstoi
            rw [e, ha] at he1
            exact Except.noConfusion he1
          exact ih hl1 s2 (sound_add defs s s2 (n, r) hs hd hn ha)
            (by rw [add_result_frame s s2 n ha name hne]; exact hnone) h
      · simp only [pass_loop, hn, hcheck, if_true, if_false] at h
        exact ih hl1 s hs hnone h
    · simp only [pass_loop, hn, if_false] at h
      exact ih hl1 s hs hnone h

theorem mem_keys_of_find (defs : List (Str × Str)) (name rhs : Str)
    (h : find defs name = some rhs) : name ∈ defs.map Prod.fst :=
  List.mem_map.2 ⟨(name, rhs), find_mem defs name rhs h, rfl⟩

theorem run_evaluation_never_adds (defs : List (Str × Str)) (name rhs t : Str)
    (hrhs : find defs name = some rhs) (ht : t ∈ flushed (terms rhs))
    (hundef : find defs t = none) (hstoi : ∀ z, stoi t ≠ Except.ok z)
    (passes : Nat) (s : State) (hs : Sound defs s) (hnone : find s.result name = none) :
    ∀ s1 out, run_evaluation passes s ≠ Outcome.done s1 out := by
  have hkey : name ∈ defs.map Prod.fst := mem_keys_of_find defs name rhs hrhs
  induction passes generalizing s with
  | zero =>
    intro s1 out h
    have hlen : s.result.length < s.expression.length := by
      rw [hs.1]
      have hnd : (name :: s.result.map Prod.fst).Nodup :=
        List.nodup_cons.2 ⟨(find_eq_none_iff s.result name).1 hnone, hs.2.1⟩
      have hsub : (name :: s.result.map Prod.fst) ⊆ defs.map Prod.fst := fun k hk => by
        rcases List.mem_cons.1 hk with rfl | hk1
        · exact hkey
        · exact hs.2.2 k hk1
      have := (List.subperm_of_subset hnd hsub).length_le
      simp only [List.length_cons, List.length_map] at this
      omega
    simp [run_evaluation, hlen] at h
  | succ n ih =>
    intro s1 out h
    have hlen : s.result.length < s.expression.length := by
      rw [hs.1]
      have hnd : (name :: s.result.map Prod.fst).Nodup :=
        List.nodup_cons.2 ⟨(find_eq_none_iff s.result name).1 hnone, hs.2.1⟩
      have hsub : (name :: s.result.map Prod.fst) ⊆ defs.map Prod.fst := fun k hk => by
        rcases List.mem_cons.1 hk with rfl | hk1
        · exact hkey
        · exact hs.2.2 k hk1
      have := (List.subperm_of_subset hnd hsub).length_le
      simp only [List.length_cons, List.length_map] at this
      omega
    cases hp : pass_loop s.expression s with
    | error e => simp [run_evaluation, hlen, hp] at h
    | ok s2 =>
      rw [run_evaluation_pass _ s s2 hlen hp] at h
      have hl : ∀ d ∈ s.expression, d ∈ defs := fun d hd => by rw [← hs.1]; exact hd
      exact ih s2 (pass_loop_sound defs s.expression hl s s2 hs hp)
        (pass_loop_never_adds defs name rhs t hrhs ht hundef hstoi s.expression hl s s2 hs
          hnone hp) s1 out h

theorem run_evaluation_keeps (passes : Nat) (s s1 : State) (out : Str)
    (h : run_evaluation passes s = Outcome.done s1 out) :
    ∀ k v, find s.result k = some v → find s1.result k = some v := by
  induction passes generalizing s with
  | zero =>
    by_cases hlen : s.result.length < s.expression.length
    · simp [run_evaluation, hlen] at h
    · rw [run_evaluation_exit _ s hlen] at h
      simp only [Outcome.done.injEq] at h
      obtain ⟨h1, _⟩ := h
      subst h1
      exact fun _ _ hk => hk
  | succ n ih =>
    by_cases hlen : s.result.length < s.expression.length
    · cases hp : pass_loop s.expression s with
      | error e => simp [run_evaluation, hlen, hp] at h
      | ok s2 =>
        rw [run_evaluation_pass _ s s2 hlen hp] at h
        exact fun k v hk => ih s2 h k v (pass_loop_keeps _ s s2 hp k v hk)
    · rw [run_evaluation_exit _ s hlen] at h
      simp only [Outcome.done.injEq] at h
      obtain ⟨h1, _⟩ := h
      subst h1
      exact fun _ _ hk => hk

theorem subst_value_undefined (defs : List (Str × Str)) (depth : Nat) (name : Str)
    (h : find defs name = none) : subst_value defs depth name = none := by
  cases depth with
  | zero => rfl
  | succ d => simp [subst_value, h]

theorem sum_unknown_eq_length_filter (result : List (Str × Nat)) (toks : List Str) :
    (toks.map (unknown_of result)).sum
      = (toks.filter fun t =>
          decide (t.filter Char.isAlpha ≠ []) && (find result (t.filter Char.isAlpha)).isNone).length := by
  induction toks with
  | nil => rfl
  | cons t ts ih =>
    rw [List.map_cons, List.sum_cons, ih, List.filter_cons]
    by_cases h1 : t.filter Char.isAlpha = []
    · simp [unknown_of, h1]
    · cases h2 : find result (t.filter Char.isAlpha) with
      | none => simp [unknown_of, h1, h2, Nat.add_comm]
      | some v => simp [unknown_of, h1, h2]

/-! Section: the claims -/

/-- C1, as stated, fails.  (i) The table `a ↦ 2147483647+2147483647+2` has no
reference at all; substitution gives `4294967296`, the run records 0.  (ii) In
the table `a1 ↦ 2`, `b ↦ a1` every reference is defined and nothing is
circular, and the run never ends: `check_unknowns_num` looks up the letters `a`
of the token `a1`.  (iii) On `a ↦ 4294967295` the run ends with the exception
`std::out_of_range` of `std::stoi`. -/
theorem run_evaluation_acyclic_counterexample :
    (subst_value [("a".toList, "2147483647+2147483647+2".toList)] 1 "a".toList
          = some 4294967296
        ∧ run_evaluation 1 ⟨[("a".toList, "2147483647+2147483647+2".toList)], []⟩
          = Outcome.done ⟨[("a".toList, "2147483647+2147483647+2".toList)], [("a".toList, 0)]⟩
              "a = 0\n".toList)
      ∧ (subst_value [("a1".toList, "2".toList), ("b".toList, "a1".toList)] 2 "b".toList = some 2
        ∧ ∀ passes,
            run_evaluation passes ⟨[("a1".toList, "2".toList), ("b".toList, "a1".toList)], []⟩
              = Outcome.running)
      ∧ (subst_value [("a".toList, "4294967295".toList)] 1 "a".toList = some 4294967295
        ∧ run_evaluation 1 ⟨[("a".toList, "4294967295".toList)], []⟩
          = Outcome.thrown Err.out_of_range) := by
  refine ⟨by decide, ⟨by decide, fun passes => ?_⟩, by decide⟩
  cases passes with
  | zero => decide
  | succ n =>
    rw [run_evaluation_pass n _
      ⟨[("a1".toList, "2".toList), ("b".toList, "a1".toList)], [("a1".toList, 2)]⟩
      (by decide) (by decide)]
    exact run_evaluation_stuck _ (by decide) (by decide) n

/-- C1, amended: for a well-formed table `defs` (names are non-empty strings of
letters, every token of a right-hand side is a defined name or a numeral of at
most `2147483647`, and `rank` goes down along every reference) visited in any
order, `run_evaluation` ends within as many passes as there are definitions;
it records a value for the defined names only, and the value of a defined name
is the sum `v` obtained by substitution down to numerals, modulo `2 ^ 32`. -/
theorem run_evaluation_well_formed (defs : List (Str × Str)) (rank : Str → Nat)
    (hwf : WellFormed defs rank) (order : List (Str × Str)) (hperm : order.Perm defs) :
    ∃ s, (∀ passes, order.length ≤ passes →
          run_evaluation passes ⟨order, []⟩ = Outcome.done s (write_output s))
      ∧ (∀ name, find defs name = none → find s.result name = none)
      ∧ ∀ name rhs, find defs name = some rhs →
          ∃ v, subst_value defs (rank name + 1) name = some v
            ∧ (∀ depth w, subst_value defs depth name = some w → w = v)
            ∧ find s.result name = some (v % 2 ^ 32) := by
  obtain ⟨s, hrun, _, hval⟩ := run_evaluation_table defs rank hwf order hperm
  refine ⟨s, hrun, fun name hnone => ?_, fun name rhs hdef => ?_⟩
  · rw [hval name, hnone]
    rfl
  · obtain ⟨h1, h2⟩ := subst_value_exact defs rank hwf name rhs hdef
    refine ⟨exact_value defs rank name, h1, h2, ?_⟩
    rw [hval name, hdef]
    rfl

theorem run_evaluation_well_formed_witness :
    WellFormed [("c".toList, "b+a".toList), ("a".toList, "1".toList), ("b".toList, "a+2".toList)]
        (fun n => if n = "c".toList then 2 else if n = "b".toList then 1 else 0)
      ∧ ∃ s, (∀ passes,
            [("b".toList, "a+2".toList), ("c".toList, "b+a".toList),
                ("a".toList, "1".toList)].length ≤ passes →
              run_evaluation passes
                  ⟨[("b".toList, "a+2".toList), ("c".toList, "b+a".toList),
                    ("a".toList, "1".toList)], []⟩
                = Outcome.done s (write_output s))
          ∧ (∀ name,
              find [("c".toList, "b+a".toList), ("a".toList, "1".toList),
                  ("b".toList, "a+2".toList)] name = none →
                find s.result name = none)
          ∧ ∀ name rhs,
              find [("c".toList, "b+a".toList), ("a".toList, "1".toList),
                  ("b".toList, "a+2".toList)] name = some rhs →
                ∃ v, subst_value
                      [("c".toList, "b+a".toList), ("a".toList, "1".toList),
                        ("b".toList, "a+2".toList)]
                      ((fun n : Str =>
                          if n = "c".toList then 2 else if n = "b".toList then 1 else 0) name
                        + 1) name = some v
                  ∧ (∀ depth w,
                      subst_value
                          [("c".toList, "b+a".toList), ("a".toList, "1".toList),
                            ("b".toList, "a+2".toList)] depth name = some w → w = v)
                  ∧ find s.result name = some (v % 2 ^ 32) :=
  ⟨by decide,
    run_evaluation_well_formed
      [("c".toList, "b+a".toList), ("a".toList, "1".toList), ("b".toList, "a+2".toList)]
      (fun n => if n = "c".toList then 2 else if n = "b".toList then 1 else 0)
      (by decide)
      [("b".toList, "a+2".toList), ("c".toList, "b+a".toList), ("a".toList, "1".toList)]
      (by decide)⟩

/-- C2 (the code at the failing input): on the lines `x = y`, `y = x`, in either
order of the table, and on the single line `x = y`, the loop of `run_evaluation`
is still going after any number of passes, so nothing is reported and nothing
is written. -/
theorem run_evaluation_cycle_never_returns (passes : Nat) :
    eqn_eval ["x = y".toList, "y = x".toList]
        = ⟨[("x".toList, "y".toList), ("y".toList, "x".toList)], []⟩
      ∧ run_evaluation passes ⟨[("x".toList, "y".toList), ("y".toList, "x".toList)], []⟩
          = Outcome.running
      ∧ run_evaluation passes ⟨[("y".toList, "x".toList), ("x".toList, "y".toList)], []⟩
          = Outcome.running
      ∧ run_evaluation passes (eqn_eval ["x = y".toList]) = Outcome.running :=
  ⟨by decide, run_evaluation_stuck _ (by decide) (by decide) passes,
    run_evaluation_stuck _ (by decide) (by decide) passes,
    run_evaluation_stuck _ (by decide) (by decide) passes⟩

/-- C3, as stated, fails: the lines `a = 1`, `a = 2` give `a ↦ 2`, and the same
lines in the other order give `a ↦ 1`. -/
theorem eqn_eval_permutation_counterexample :
    ["a = 2".toList, "a = 1".toList].Perm ["a = 1".toList, "a = 2".toList]
      ∧ run_evaluation 1 (eqn_eval ["a = 1".toList, "a = 2".toList])
          = Outcome.done ⟨[("a".toList, "2".toList)], [("a".toList, 2)]⟩ "a = 2\n".toList
      ∧ run_evaluation 1 (eqn_eval ["a = 2".toList, "a = 1".toList])
          = Outcome.done ⟨[("a".toList, "1".toList)], [("a".toList, 1)]⟩ "a = 1\n".toList := by
  decide

/-- C3, amended: when the lines parse to a well-formed table (in particular no
two lines define the same name), the run on the lines and the run on any
permutation of the lines both end, within as many passes as there are lines,
and record the same value for every name. -/
theorem eqn_eval_permutation (lines permuted : List Str) (rank : Str → Nat)
    (hwf : WellFormed (lines.map fun l => build_loop l [] []) rank)
    (hperm : permuted.Perm lines) :
    ∃ s1 s2,
      (∀ passes, lines.length ≤ passes →
          run_evaluation passes (eqn_eval lines) = Outcome.done s1 (write_output s1))
        ∧ (∀ passes, lines.length ≤ passes →
          run_evaluation passes (eqn_eval permuted) = Outcome.done s2 (write_output s2))
        ∧ ∀ name, find s1.result name = find s2.result name := by
  have hp2 : (permuted.map fun l => build_loop l [] []).Perm
      (lines.map fun l => build_loop l [] []) := hperm.map _
  have hnd2 : ((permuted.map fun l => build_loop l [] []).map Prod.fst).Nodup :=
    (hp2.map Prod.fst).nodup_iff.2 hwf.1
  obtain ⟨s1, hrun1, _, hval1⟩ := run_evaluation_table _ rank hwf _ (List.Perm.refl _)
  obtain ⟨s2, hrun2, _, hval2⟩ := run_evaluation_table _ rank hwf _ hp2
  refine ⟨s1, s2, fun passes hle => ?_, fun passes hle => ?_, fun name => ?_⟩
  · rw [eqn_eval_of_nodup lines hwf.1]
    exact hrun1 passes (by simpa using hle)
  · rw [eqn_eval_of_nodup permuted hnd2]
    exact hrun2 passes (by simpa [hperm.length_eq] using hle)
  · rw [hval1 name, hval2 name]

theorem eqn_eval_permutation_witness :
    WellFormed
        (["a = 1".toList, "b = a + 2".toList, "c = b + a".toList].map
          fun l => build_loop l [] [])
        (fun n => if n = "c".toList then 2 else if n = "b".toList then 1 else 0)
      ∧ ∃ s1 s2,
        (∀ passes, ["a = 1".toList, "b = a + 2".toList, "c = b + a".toList].length ≤ passes →
            run_evaluation passes
                (eqn_eval ["a = 1".toList, "b = a + 2".toList, "c = b + a".toList])
              = Outcome.done s1 (write_output s1))
          ∧ (∀ passes,
              ["a = 1".toList, "b = a + 2".toList, "c = b + a".toList].length ≤ passes →
                run_evaluation passes
                    (eqn_eval ["c = b + a".toList, "a = 1".toList, "b = a + 2".toList])
                  = Outcome.done s2 (write_output s2))
          ∧ ∀ name, find s1.result name = find s2.result name :=
  ⟨by decide,
    eqn_eval_permutation ["a = 1".toList, "b = a + 2".toList, "c = b + a".toList]
      ["c = b + a".toList, "a = 1".toList, "b = a + 2".toList]
      (fun n => if n = "c".toList then 2 else if n = "b".toList then 1 else 0)
      (by decide) (by decide)⟩

/-- C4: for every value table (a `std::map` is what assignments `result[k] = v`
make of the empty map), `write_output` writes one line `name = value` and a
newline per entry, the value in decimal, in the order of the table, and the
names of the table are strictly ascending in the order of strings. -/
theorem write_output_lines (expression : List (Str × Str)) (ops : List (Str × Nat)) :
    write_output ⟨expression, ops.foldl (fun t o => result_set t o.1 o.2) []⟩
        = ((ops.foldl (fun t o => result_set t o.1 o.2) []).map
            fun e => e.1 ++ " = ".toList ++ Nat.toDigits 10 e.2 ++ "\n".toList).flatten
      ∧ (ops.foldl (fun t o => result_set t o.1 o.2) []).Pairwise
          (fun a b => str_lt a.1 b.1 = true) := by
  refine ⟨?_, result_of_sorted ops [] List.Pairwise.nil⟩
  simp only [write_output, write_loop_eq, List.nil_append]
  rfl

/-- C5: the lines `a = 1`, `b = a + 2`, `c = b + a` are parsed into the table
`a ↦ 1`, `b ↦ a+2`, `c ↦ b+a`, and in whatever order that table is visited
`run_evaluation` ends within three passes having written `a = 1`, `b = 3`,
`c = 4`, one per line. -/
theorem pipeline_example :
    eqn_eval ["a = 1".toList, "b = a + 2".toList, "c = b + a".toList]
        = ⟨[("a".toList, "1".toList), ("b".toList, "a+2".toList), ("c".toList, "b+a".toList)], []⟩
      ∧ ∀ order : List (Str × Str),
          order.Perm
              (eqn_eval ["a = 1".toList, "b = a + 2".toList, "c = b + a".toList]).expression →
            run_evaluation 3 ⟨order, []⟩
              = Outcome.done ⟨order, [("a".toList, 1), ("b".toList, 3), ("c".toList, 4)]⟩
                  "a = 1\nb = 3\nc = 4\n".toList := by
  refine ⟨by decide, ?_⟩
  intro order h
  have htab : (eqn_eval ["a = 1".toList, "b = a + 2".toList, "c = b + a".toList]).expression
      = [("a".toList, "1".toList), ("b".toList, "a+2".toList), ("c".toList, "b+a".toList)] := by
    decide
  rw [htab] at h
  have hlen : order.length = 3 := h.length_eq
  have hnd : order.Nodup := h.nodup_iff.2 (by decide)
  have hmem : ∀ e ∈ order, e = ("a".toList, "1".toList) ∨ e = ("b".toList, "a+2".toList)
      ∨ e = ("c".toList, "b+a".toList) := fun e he => by
    simpa using h.mem_iff.1 he
  match order, hlen, hnd, hmem with
  | [x, y, z], _, hnd, hmem =>
    rcases hmem x (by simp) with rfl | rfl | rfl <;>
    rcases hmem y (by simp) with rfl | rfl | rfl <;>
    rcases hmem z (by simp) with rfl | rfl | rfl <;>
    first
      | decide
      | (exfalso; revert hnd; decide)

theorem pipeline_example_witness :
    run_evaluation 3 (eqn_eval ["a = 1".toList, "b = a + 2".toList, "c = b + a".toList])
      = Outcome.done
          ⟨(eqn_eval ["a = 1".toList, "b = a + 2".toList, "c = b + a".toList]).expression,
            [("a".toList, 1), ("b".toList, 3), ("c".toList, 4)]⟩
          "a = 1\nb = 3\nc = 4\n".toList :=
  pipeline_example.2 _ (List.Perm.refl _)

/-- C6: for a line with exactly one `'='` (none in `l`, none in `r`),
`build_expression` stores under the key `l` without its spaces the string `r`
without its spaces, and neither holds a space. -/
theorem build_expression_one_eq (s : State) (l r : Str) (hl : '=' ∉ l) (hr : '=' ∉ r) :
    build_expression s (l ++ '=' :: r)
        = { expression := expression_set s.expression (strip l) (strip r), result := s.result }
      ∧ find (build_expression s (l ++ '=' :: r)).expression (strip l) = some (strip r)
      ∧ ' ' ∉ strip l ∧ ' ' ∉ strip r := by
  have h : build_expression s (l ++ '=' :: r)
      = { expression := expression_set s.expression (strip l) (strip r), result := s.result } := by
    simp [build_expression, build_loop_split l r [] [] hl hr]
  refine ⟨h, ?_, space_not_mem_strip l, space_not_mem_strip r⟩
  rw [h]
  simp [find_expression_set]

theorem build_expression_one_eq_witness :
    build_expression ⟨[], []⟩ (" b ".toList ++ '=' :: " a + 2".toList)
        = { expression := expression_set [] (strip " b ".toList) (strip " a + 2".toList),
            result := [] }
      ∧ find (build_expression ⟨[], []⟩ (" b ".toList ++ '=' :: " a + 2".toList)).expression
          (strip " b ".toList) = some (strip " a + 2".toList)
      ∧ ' ' ∉ strip " b ".toList ∧ ' ' ∉ strip " a + 2".toList :=
  build_expression_one_eq ⟨[], []⟩ " b ".toList " a + 2".toList (by decide) (by decide)

/-- C7, as stated, fails: on the line `a=b=c` the split is not at the first
`'='`; the entry stored is `b ↦ c`, and `a` gets no entry. -/
theorem build_expression_first_eq_counterexample :
    (build_expression ⟨[], []⟩ "a=b=c".toList).expression
        ≠ expression_set [] (strip "a".toList) (strip "b=c".toList)
      ∧ (build_expression ⟨[], []⟩ "a=b=c".toList).expression = [("b".toList, "c".toList)]
      ∧ find (build_expression ⟨[], []⟩ "a=b=c".toList).expression "a".toList = none := by
  decide

/-- C7, amended: a line with one or more `'='` is split at its last `'='`.  With
`r` the text after the last `'='` and `m` the text between the last `'='` and
the one before it (`p` is empty or ends in `'='`), the name is `m` without its
spaces and the stored right-hand side is `r` without its spaces. -/
theorem build_expression_last_eq (s : State) (p m r : Str)
    (hp : p = [] ∨ ∃ q, p = q ++ ['=']) (hm : '=' ∉ m) (hr : '=' ∉ r) :
    build_expression s (p ++ (m ++ '=' :: r))
        = { expression := expression_set s.expression (strip m) (strip r), result := s.result }
      ∧ find (build_expression s (p ++ (m ++ '=' :: r))).expression (strip m) = some (strip r) := by
  have hloop : build_loop (p ++ (m ++ '=' :: r)) [] [] = (strip m, strip r) := by
    rcases hp with hp | ⟨q, hq⟩
    · subst hp
      simpa using build_loop_split m r [] [] hm hr
    · subst hq
      rw [build_loop_append, build_loop_ends_eq, build_loop_split m r _ _ hm hr]
      simp
  have h : build_expression s (p ++ (m ++ '=' :: r))
      = { expression := expression_set s.expression (strip m) (strip r), result := s.result } := by
    simp [build_expression, hloop]
  refine ⟨h, ?_⟩
  rw [h]
  simp [find_expression_set]

theorem build_expression_last_eq_witness :
    build_expression ⟨[], []⟩ ("a =".toList ++ (" b ".toList ++ '=' :: " c + 1".toList))
        = { expression := expression_set [] (strip " b ".toList) (strip " c + 1".toList),
            result := [] }
      ∧ find (build_expression ⟨[], []⟩
            ("a =".toList ++ (" b ".toList ++ '=' :: " c + 1".toList))).expression
          (strip " b ".toList) = some (strip " c + 1".toList) :=
  build_expression_last_eq ⟨[], []⟩ "a =".toList " b ".toList " c + 1".toList
    (Or.inr ⟨"a ".toList, by decide⟩) (by decide) (by decide)

/-- C8, as stated, fails: the line `abc` has no `'='`, and `build_expression`
answers with a table that has the entry `"" ↦ abc`. -/
theorem build_expression_no_eq_counterexample :
    build_expression ⟨[], []⟩ "abc".toList = ⟨[([], "abc".toList)], []⟩
      ∧ find (build_expression ⟨[], []⟩ "abc".toList).expression [] = some "abc".toList := by
  decide

/-- C8, amended: for a line with no `'='`, `build_expression` reports nothing and
assigns the line without its spaces to the entry whose name is the empty string. -/
theorem build_expression_no_eq (s : State) (line : Str) (h : '=' ∉ line) :
    build_expression s line
        = { expression := expression_set s.expression [] (strip line), result := s.result }
      ∧ find (build_expression s line).expression [] = some (strip line) := by
  have h1 : build_expression s line
      = { expression := expression_set s.expression [] (strip line), result := s.result } := by
    simp [build_expression, build_loop_no_eq line [] [] h]
  refine ⟨h1, ?_⟩
  rw [h1]
  simp [find_expression_set]

theorem build_expression_no_eq_witness :
    build_expression ⟨[("a".toList, "1".toList)], []⟩ "b + 1".toList
        = { expression := expression_set [("a".toList, "1".toList)] [] (strip "b + 1".toList),
            result := [] }
      ∧ find (build_expression ⟨[("a".toList, "1".toList)], []⟩ "b + 1".toList).expression []
          = some (strip "b + 1".toList) :=
  build_expression_no_eq ⟨[("a".toList, "1".toList)], []⟩ "b + 1".toList (by decide)

/-- C9: `build_expression(line)` sets the one key `name` (what the loop leaves in
`variable_name`) to the parsed right-hand side (what it leaves in `buffer`): a
lookup of `name` gives the new right-hand side whatever was there before, a
lookup of any other key gives what it gave before, the number of entries grows
by one exactly when `name` had no entry, and `result` is unchanged. -/
theorem build_expression_frame (s : State) (line : Str) :
    (build_expression s line).result = s.result
      ∧ (∀ k, find (build_expression s line).expression k
          = if k = (build_loop line [] []).1 then some (build_loop line [] []).2
            else find s.expression k)
      ∧ (build_expression s line).expression.length
          = if find s.expression (build_loop line [] []).1 = none then s.expression.length + 1
            else s.expression.length := by
  refine ⟨rfl, fun k => ?_, ?_⟩
  · simp [build_expression, find_expression_set]
  · simp only [build_expression]
    exact expression_set_length s.expression _ _

/-- C10, as stated, fails: with `x ↦ 1` defined and an entry `1 ↦ 5` in the
value table, `add_result("x")` records 5 for `x`, not the number 1 that the
token `1` denotes. -/
theorem add_result_digit_name_counterexample :
    is_numeral "1".toList = true ∧ decimal_from 0 "1".toList = 1
      ∧ add_result ⟨[("x".toList, "1".toList)], [("1".toList, 5)]⟩ "x".toList
          = Except.ok ⟨[("x".toList, "1".toList)], [("1".toList, 5), ("x".toList, 5)]⟩ := by
  decide

/-- C10, amended: for a token `t` of decimal digits only, read by the loop of
`add_result` from an empty `buffer` up to the next `'+'` or up to the end of the
right-hand side: when `result` has an entry named `t`, that entry's value is
added to `res`; when it has none and `t` denotes at most `2147483647`, the number
`t` denotes is added; the addition is modulo `2 ^ 32`. -/
theorem add_loop_numeral_token (result : List (Str × Nat)) (t rest : Str) (res : Nat)
    (h : is_numeral t = true) (hmax : find result t = none → decimal_from 0 t ≤ 2147483647) :
    add_loop result (t ++ '+' :: rest) [] res
        = add_loop result rest [] ((res + (find result t).getD (decimal_from 0 t)) % 2 ^ 32)
      ∧ add_loop result t [] res
        = Except.ok ((res + (find result t).getD (decimal_from 0 t)) % 2 ^ 32) := by
  obtain ⟨hne, hd⟩ := (is_numeral_iff t).1 h
  have hplus : '+' ∉ t := fun hm => by
    have hr := digit_range _ (hd _ hm)
    revert hr
    decide
  rw [add_loop_token_plus result t rest [] res hplus, add_loop_token_end result t [] res hplus hne]
  cases hfind : find result t with
  | none => simp [add_token_numeral result t res h (hmax hfind) hfind]
  | some v => simp [add_token_found result t res v hfind]

theorem add_loop_numeral_token_witness :
    add_loop [("a".toList, 7)] ("12".toList ++ '+' :: "a".toList) [] 3
        = add_loop [("a".toList, 7)] "a".toList []
            ((3 + (find [("a".toList, 7)] "12".toList).getD (decimal_from 0 "12".toList)) % 2 ^ 32)
      ∧ add_loop [("a".toList, 7)] "12".toList [] 3
        = Except.ok
            ((3 + (find [("a".toList, 7)] "12".toList).getD (decimal_from 0 "12".toList)) % 2 ^ 32) :=
  add_loop_numeral_token [("a".toList, 7)] "12".toList "a".toList 3 (by decide)
    (fun _ => by decide)

/-- C11, as stated, fails: the tokens `1.5` and `5-3` are neither decimal
integers nor names of defined variables, and the runs on the lines `a = 1.5`
and `a = 5-3` end normally, recording 1 and 5 for `a`. -/
theorem run_evaluation_bad_token_counterexample :
    is_numeral "1.5".toList = false ∧ is_numeral "5-3".toList = false
      ∧ run_evaluation 1 (eqn_eval ["a = 1.5".toList])
          = Outcome.done ⟨[("a".toList, "1.5".toList)], [("a".toList, 1)]⟩ "a = 1\n".toList
      ∧ run_evaluation 1 (eqn_eval ["a = 5-3".toList])
          = Outcome.done ⟨[("a".toList, "5-3".toList)], [("a".toList, 5)]⟩ "a = 5\n".toList := by
  decide

/-- C11, amended: let `t` be a token of the definition of `name` that the loop of
`add_result` converts (any token but an empty one at the very end of the
right-hand side), that is not the name of a defined variable and that
`std::stoi` does not convert (it has no leading number, as the empty token
between two `'+'`, or its leading number does not fit an `int`).  Then
`add_result(name)` throws whenever it is called in a run on the table, and no
run on the table ends normally: no value is ever recorded for `name` and
nothing is written. -/
theorem run_evaluation_bad_token (defs : List (Str × Str)) (name rhs t : Str) (e0 : Err)
    (hrhs : find defs name = some rhs) (ht : t ∈ flushed (terms rhs))
    (hundef : find defs t = none) (hthrow : stoi t = Except.error e0) :
    (∀ s, Sound defs s → ∃ e, add_result s name = Except.error e)
      ∧ ∀ passes s1 out, run_evaluation passes ⟨defs, []⟩ ≠ Outcome.done s1 out := by
  have hstoi : ∀ z, stoi t ≠ Except.ok z := fun z hz => by
    rw [hthrow] at hz
    exact Except.noConfusion hz
  refine ⟨fun s hs => ?_, fun passes => ?_⟩
  · have htnone : find s.result t = none :=
      (find_eq_none_iff s.result t).2 (fun hm =>
        (find_eq_none_iff defs t).1 hundef (hs.2.2 t hm))
    exact add_result_throws s name rhs t (by rw [hs.1]; exact hrhs) ht htnone hstoi
  · exact run_evaluation_never_adds defs name rhs t hrhs ht hundef hstoi passes ⟨defs, []⟩
      ⟨rfl, List.nodup_nil, fun k hk => absurd hk (List.not_mem_nil k)⟩ rfl

theorem run_evaluation_bad_token_witness :
    (eqn_eval ["a = 1 + + 2".toList]).expression = [("a".toList, "1++2".toList)]
      ∧ run_evaluation 1 ⟨[("a".toList, "1++2".toList)], []⟩
          = Outcome.thrown Err.invalid_argument
      ∧ (∀ s, Sound [("a".toList, "1++2".toList)] s →
          ∃ e, add_result s "a".toList = Except.error e)
      ∧ ∀ passes s1 out,
          run_evaluation passes ⟨[("a".toList, "1++2".toList)], []⟩ ≠ Outcome.done s1 out :=
  ⟨by decide, by decide,
    run_evaluation_bad_token [("a".toList, "1++2".toList)] "a".toList "1++2".toList []
      Err.invalid_argument (by decide) (by decide) (by decide) (by decide)⟩

/-- C12: for a variable whose right-hand side is empty, `check_unknowns_num`
returns 0 for that right-hand side and `add_result` records the value 0 for the
variable, leaving `expression` as it is. -/
theorem empty_rhs_is_zero (s : State) (name : Str) (h : find s.expression name = some []) :
    check_unknowns_num s.result [] = 0
      ∧ add_result s name = Except.ok ⟨s.expression, result_set s.result name 0⟩
      ∧ find (result_set s.result name 0) name = some 0 := by
  refine ⟨rfl, ?_, by simp [find_result_set]⟩
  simp [add_result, h, add_loop]

theorem empty_rhs_is_zero_witness :
    check_unknowns_num (eqn_eval ["a =   ".toList, "b = 7".toList]).result [] = 0
      ∧ add_result (eqn_eval ["a =   ".toList, "b = 7".toList]) "a".toList
          = Except.ok ⟨(eqn_eval ["a =   ".toList, "b = 7".toList]).expression,
              result_set (eqn_eval ["a =   ".toList, "b = 7".toList]).result "a".toList 0⟩
      ∧ find (result_set (eqn_eval ["a =   ".toList, "b = 7".toList]).result "a".toList 0)
          "a".toList = some 0 :=
  empty_rhs_is_zero (eqn_eval ["a =   ".toList, "b = 7".toList]) "a".toList (by decide)

/-- C13: the value table is write-once.  A call of `add_result` changes the
entry of no other name; the loop of `run_evaluation` passes over a name that
has an entry without calling `add_result`; so through any stretch of the `for`
loop, and from the start of a run to its end, every entry present keeps its
value.  (`check_unknowns_num` only reads the table: it returns a number.) -/
theorem value_table_write_once (passes : Nat) (s s1 : State) (out : Str)
    (h : run_evaluation passes s = Outcome.done s1 out) :
    (∀ k v, find s.result k = some v → find s1.result k = some v)
      ∧ (∀ (l : List (Str × Str)) (a b : State), pass_loop l a = Except.ok b →
          ∀ k v, find a.result k = some v → find b.result k = some v)
      ∧ (∀ (a b : State) (name : Str), add_result a name = Except.ok b →
          ∀ k, k ≠ name → find b.result k = find a.result k)
      ∧ ∀ (name rhs : Str) (rest : List (Str × Str)) (a : State),
          find a.result name ≠ none → pass_loop ((name, rhs) :: rest) a = pass_loop rest a := by
  refine ⟨run_evaluation_keeps passes s s1 out h, fun l a b hp => pass_loop_keeps l a b hp,
    fun a b name ha => add_result_frame a b name ha, fun name rhs rest a hne => ?_⟩
  simp [pass_loop, hne]

theorem value_table_write_once_witness :
    (∀ k v, find [("a".toList, 1)] k = some v →
        find [("a".toList, 1), ("b".toList, 3), ("c".toList, 4)] k = some v)
      ∧ (∀ (l : List (Str × Str)) (a b : State), pass_loop l a = Except.ok b →
          ∀ k v, find a.result k = some v → find b.result k = some v)
      ∧ (∀ (a b : State) (name : Str), add_result a name = Except.ok b →
          ∀ k, k ≠ name → find b.result k = find a.result k)
      ∧ ∀ (name rhs : Str) (rest : List (Str × Str)) (a : State),
          find a.result name ≠ none → pass_loop ((name, rhs) :: rest) a = pass_loop rest a :=
  value_table_write_once 2
    ⟨[("c".toList, "b+a".toList), ("b".toList, "a+2".toList), ("a".toList, "1".toList)],
      [("a".toList, 1)]⟩
    ⟨[("c".toList, "b+a".toList), ("b".toList, "a+2".toList), ("a".toList, "1".toList)],
      [("a".toList, 1), ("b".toList, 3), ("c".toList, 4)]⟩
    "a = 1\nb = 3\nc = 4\n".toList (by decide)

/-- C14, as stated, fails: with one argument (`argc = 2`) the text on standard
output is ` Fail reason: Incorrect Input` and a newline; its first character
is a space, so it does not begin with `Fail reason: `. -/
theorem main_usage_counterexample :
    (main (fun _ => []) 2 ["a = 1".toList] 5).map (fun r => r.stdout)
        = some " Fail reason: Incorrect Input\n".toList
      ∧ (main (fun _ => []) 2 ["a = 1".toList] 5).map (fun r => r.stdout.take 13)
        ≠ some "Fail reason: ".toList := by
  decide

/-- C14, amended: for every argument count other than 3, `main` reads no input
and calls neither `run_evaluation` nor `write_output`, whatever the input file
holds, and what it prints to standard output is exactly a space followed by
`Fail reason: Incorrect Input` and a newline. -/
theorem main_usage (what : Err → Str) (argc : Int) (lines : List Str) (passes : Nat)
    (h : argc ≠ 3) :
    main what argc lines passes
      = some ⟨' ' :: "Fail reason: Incorrect Input\n".toList, false, false, none⟩ := by
  simp [main, h]

theorem main_usage_witness :
    main (fun _ => "stoi".toList) 4 ["a = 1".toList, "b = a".toList] 0
      = some ⟨' ' :: "Fail reason: Incorrect Input\n".toList, false, false, none⟩ :=
  main_usage (fun _ => "stoi".toList) 4 ["a = 1".toList, "b = a".toList] 0 (by decide)

/-- C15: for a well-formed table (names are non-empty strings of letters, every
token is a defined all-letter name or a numeral of at most `2147483647`, `rank`
goes down along every reference) in which the value by substitution of every
variable is below `2 ^ 32`, visited in any order, `run_evaluation` ends within
as many passes as there are definitions with a value table that maps every
defined name to its value by substitution and has no other entry. -/
theorem run_evaluation_true_values (defs : List (Str × Str)) (rank : Str → Nat)
    (hwf : WellFormed defs rank)
    (hsmall : ∀ d ∈ defs, ∀ depth v, subst_value defs depth d.1 = some v → v < 2 ^ 32)
    (order : List (Str × Str)) (hperm : order.Perm defs) :
    ∃ s, (∀ passes, order.length ≤ passes →
          run_evaluation passes ⟨order, []⟩ = Outcome.done s (write_output s))
      ∧ (∀ name, find defs name = none → find s.result name = none)
      ∧ ∀ name rhs, find defs name = some rhs →
          ∃ v, subst_value defs (rank name + 1) name = some v
            ∧ find s.result name = some v := by
  obtain ⟨s, hrun, _, hval⟩ := run_evaluation_table defs rank hwf order hperm
  refine ⟨s, hrun, fun name hnone => ?_, fun name rhs hdef => ?_⟩
  · rw [hval name, hnone]
    rfl
  · obtain ⟨h1, _⟩ := subst_value_exact defs rank hwf name rhs hdef
    have hlt := hsmall (name, rhs) (find_mem defs name rhs hdef) _ _ h1
    refine ⟨exact_value defs rank name, h1, ?_⟩
    rw [hval name, hdef]
    simp only [Option.map_some']
    rw [Nat.mod_eq_of_lt hlt]

theorem small_of_exact_value (defs : List (Str × Str)) (rank : Str → Nat)
    (hwf : WellFormed defs rank)
    (h : ∀ d ∈ defs, exact_value defs rank d.1 < 2 ^ 32) :
    ∀ d ∈ defs, ∀ depth v, subst_value defs depth d.1 = some v → v < 2 ^ 32 := by
  intro d hd depth v hv
  have hfind : find defs d.1 = some d.2 := find_of_mem defs d.1 d.2 hwf.1 hd
  rw [(subst_value_exact defs rank hwf d.1 d.2 hfind).2 depth v hv]
  exact h d hd

theorem run_evaluation_true_values_witness :
    ∃ s, (∀ passes,
          [("b".toList, "a+2".toList), ("c".toList, "b+a".toList),
              ("a".toList, "1".toList)].length ≤ passes →
            run_evaluation passes
                ⟨[("b".toList, "a+2".toList), ("c".toList, "b+a".toList),
                  ("a".toList, "1".toList)], []⟩
              = Outcome.done s (write_output s))
      ∧ (∀ name,
          find [("c".toList, "b+a".toList), ("a".toList, "1".toList),
              ("b".toList, "a+2".toList)] name = none →
            find s.result name = none)
      ∧ ∀ name rhs,
          find [("c".toList, "b+a".toList), ("a".toList, "1".toList),
              ("b".toList, "a+2".toList)] name = some rhs →
            ∃ v, subst_value
                  [("c".toList, "b+a".toList), ("a".toList, "1".toList),
                    ("b".toList, "a+2".toList)]
                  ((fun n : Str =>
                      if n = "c".toList then 2 else if n = "b".toList then 1 else 0) name
                    + 1) name = some v
              ∧ find s.result name = some v :=
  run_evaluation_true_values
    [("c".toList, "b+a".toList), ("a".toList, "1".toList), ("b".toList, "a+2".toList)]
    (fun n => if n = "c".toList then 2 else if n = "b".toList then 1 else 0)
    (by decide)
    (small_of_exact_value
      [("c".toList, "b+a".toList), ("a".toList, "1".toList), ("b".toList, "a+2".toList)]
      (fun n => if n = "c".toList then 2 else if n = "b".toList then 1 else 0)
      (by decide) (by decide))
    [("b".toList, "a+2".toList), ("c".toList, "b+a".toList), ("a".toList, "1".toList)]
    (by decide)

/-- C16: on a well-formed table every pass of the `while` loop that starts with
a variable unresolved (the state `s` is one a run reaches: it satisfies `Inv`,
as the start of the run does and as the state after the pass does again) ends
without an exception with more entries in the value table than it started
with, and the run ends within as many passes as there are definitions. -/
theorem pass_makes_progress (defs : List (Str × Str)) (rank : Str → Nat)
    (hwf : WellFormed defs rank) :
    Inv defs rank ⟨defs, []⟩
      ∧ (∀ s, Inv defs rank s → s.result.length < s.expression.length →
          ∃ s1, pass_loop s.expression s = Except.ok s1 ∧ Inv defs rank s1
            ∧ s.result.length < s1.result.length)
      ∧ ∃ s, run_evaluation defs.length ⟨defs, []⟩ = Outcome.done s (write_output s) := by
  have hinv0 : Inv defs rank ⟨defs, []⟩ :=
    ⟨rfl, List.nodup_nil, fun k v h => by simp [find] at h⟩
  refine ⟨hinv0, fun s hs hlen => ?_, ?_⟩
  · rw [hs.1] at hlen ⊢
    obtain ⟨s1, hpass, hinv1, hmono, hprog⟩ :=
      pass_loop_wf defs rank hwf defs (fun _ h => h) s hs
    obtain ⟨d, hd, hnone⟩ := exists_unresolved defs rank hwf s hlen
    obtain ⟨e, he, henone, heready⟩ :=
      exists_ready defs rank hwf s.result (rank d.1) d hd rfl hnone
    exact ⟨s1, hpass, hinv1,
      length_lt_of_new_key s.result s1.result e.1 hs.2.1 hmono henone (hprog e he heready)⟩
  · obtain ⟨s, hrun, _, _⟩ :=
      run_evaluation_wf defs rank hwf defs.length ⟨defs, []⟩ hinv0 (by simp)
    exact ⟨s, hrun⟩

theorem pass_makes_progress_witness :
    WellFormed [("c".toList, "b+a".toList), ("a".toList, "1".toList), ("b".toList, "a+2".toList)]
        (fun n => if n = "c".toList then 2 else if n = "b".toList then 1 else 0)
      ∧ Inv [("c".toList, "b+a".toList), ("a".toList, "1".toList), ("b".toList, "a+2".toList)]
          (fun n => if n = "c".toList then 2 else if n = "b".toList then 1 else 0)
          ⟨[("c".toList, "b+a".toList), ("a".toList, "1".toList), ("b".toList, "a+2".toList)],
            []⟩
      ∧ (∀ s,
          Inv [("c".toList, "b+a".toList), ("a".toList, "1".toList), ("b".toList, "a+2".toList)]
              (fun n => if n = "c".toList then 2 else if n = "b".toList then 1 else 0) s →
            s.result.length < s.expression.length →
              ∃ s1, pass_loop s.expression s = Except.ok s1
                ∧ Inv [("c".toList, "b+a".toList), ("a".toList, "1".toList),
                      ("b".toList, "a+2".toList)]
                    (fun n => if n = "c".toList then 2 else if n = "b".toList then 1 else 0) s1
                ∧ s.result.length < s1.result.length)
      ∧ ∃ s, run_evaluation
            [("c".toList, "b+a".toList), ("a".toList, "1".toList),
              ("b".toList, "a+2".toList)].length
            ⟨[("c".toList, "b+a".toList), ("a".toList, "1".toList),
              ("b".toList, "a+2".toList)], []⟩
          = Outcome.done s (write_output s) :=
  ⟨by decide,
    pass_makes_progress
      [("c".toList, "b+a".toList), ("a".toList, "1".toList), ("b".toList, "a+2".toList)]
      (fun n => if n = "c".toList then 2 else if n = "b".toList then 1 else 0) (by decide)⟩

/-- C17, as stated, fails: for the right-hand side `1.5` and an empty value
table the count of the specification is 1 and `check_unknowns_num` returns 0;
for the right-hand side `a1` and a value table with an entry `a1` the count of
the specification is 0 and `check_unknowns_num` returns 1. -/
theorem check_unknowns_num_counterexample :
    (spec_unknowns [] "1.5".toList = 1 ∧ check_unknowns_num [] "1.5".toList = 0)
      ∧ (spec_unknowns [("a1".toList, 2)] "a1".toList = 0
        ∧ check_unknowns_num [("a1".toList, 2)] "a1".toList = 1) := by
  decide

/-- C17, amended: for every right-hand side and every value table,
`check_unknowns_num` returns the number of `'+'`-separated tokens (counted with
repetition) that hold a letter and whose letters, read without the other
characters of the token, are not a name present in the value table; when every
token is a non-empty string of letters or a decimal numeral, that is the
number of tokens that are not numerals and not names present in the table. -/
theorem check_unknowns_num_count (result : List (Str × Nat)) (rhs : Str) :
    check_unknowns_num result rhs
        = ((terms rhs).filter fun t =>
            decide (t.filter Char.isAlpha ≠ [])
              && (find result (t.filter Char.isAlpha)).isNone).length
      ∧ ((∀ t ∈ terms rhs, is_name t = true ∨ is_numeral t = true) →
          check_unknowns_num result rhs = spec_unknowns result rhs) := by
  have h1 : check_unknowns_num result rhs
      = ((terms rhs).filter fun t =>
          decide (t.filter Char.isAlpha ≠ [])
            && (find result (t.filter Char.isAlpha)).isNone).length := by
    rw [check_unknowns_num_eq, sum_unknown_eq_length_filter]
  refine ⟨h1, fun hshape => ?_⟩
  rw [h1, spec_unknowns]
  congr 1
  refine List.filter_congr (fun t ht => ?_)
  rcases hshape t ht with hname | hnum
  · obtain ⟨hne, ha⟩ := (is_name_iff t).1 hname
    have hf : t.filter Char.isAlpha = t := List.filter_eq_self.2 ha
    simp [hf, hne, name_not_numeral t hname]
  · obtain ⟨_, hd⟩ := (is_numeral_iff t).1 hnum
    have hf : t.filter Char.isAlpha = [] :=
      List.filter_eq_nil_iff.2 (fun c hc => by simp [digit_not_alpha c (hd c hc)])
    simp [hf, hnum]

theorem check_unknowns_num_count_witness :
    check_unknowns_num [("a".toList, 1)] "a+12+b+b".toList
        = (((terms "a+12+b+b".toList).filter fun t =>
            decide (t.filter Char.isAlpha ≠ [])
              && (find [("a".toList, 1)] (t.filter Char.isAlpha)).isNone).length)
      ∧ check_unknowns_num [("a".toList, 1)] "a+12+b+b".toList
        = spec_unknowns [("a".toList, 1)] "a+12+b+b".toList
      ∧ spec_unknowns [("a".toList, 1)] "a+12+b+b".toList = 2 :=
  ⟨(check_unknowns_num_count [("a".toList, 1)] "a+12+b+b".toList).1,
    (check_unknowns_num_count [("a".toList, 1)] "a+12+b+b".toList).2 (by decide), by decide⟩

/-- C18: in a run on the table `defs` every state is `Sound`: it is so at the
start, and it stays so over every stretch of the `for` loop.  In a `Sound`
state every name of the value table is a name of the definition table and the
value table is not the larger of the two; and when the loop is left (its
condition is false) the two tables have the same names. -/
theorem value_names_defined (defs : List (Str × Str)) :
    Sound defs ⟨defs, []⟩
      ∧ (∀ (l : List (Str × Str)) (s s1 : State), (∀ d ∈ l, d ∈ defs) → Sound defs s →
          pass_loop l s = Except.ok s1 → Sound defs s1)
      ∧ (∀ s, Sound defs s →
          (∀ k, find s.result k ≠ none → find defs k ≠ none)
            ∧ s.result.length ≤ s.expression.length)
      ∧ ∀ passes s1 out, run_evaluation passes ⟨defs, []⟩ = Outcome.done s1 out →
          ∀ k, find s1.result k ≠ none ↔ find defs k ≠ none := by
  have h0 : Sound defs ⟨defs, []⟩ :=
    ⟨rfl, List.nodup_nil, fun k hk => absurd hk (List.not_mem_nil k)⟩
  refine ⟨h0, fun l s s1 hl hs hp => pass_loop_sound defs l hl s s1 hs hp, fun s hs => ?_,
    fun passes s1 out hrun k => ?_⟩
  · refine ⟨fun k hk hnone => ?_, by rw [hs.1]; exact sound_length_le defs s hs⟩
    have hmem : k ∈ s.result.map Prod.fst := by
      by_contra hnot
      exact hk ((find_eq_none_iff s.result k).2 hnot)
    exact (find_eq_none_iff defs k).1 hnone (hs.2.2 k hmem)
  · obtain ⟨hs1, hlen, _, _⟩ := run_evaluation_sound defs passes ⟨defs, []⟩ s1 out h0 hrun
    have hiff := sound_exit defs s1 hs1 hlen k
    rw [Ne, Ne, find_eq_none_iff, find_eq_none_iff, not_not, not_not]
    exact hiff

theorem value_names_defined_witness :
    (find [("a".toList, 1), ("b".toList, 3)] "b".toList ≠ none
        ↔ find [("b".toList, "a+2".toList), ("a".toList, "1".toList)] "b".toList ≠ none)
      ∧ (find [("a".toList, 1), ("b".toList, 3)] "c".toList ≠ none
        ↔ find [("b".toList, "a+2".toList), ("a".toList, "1".toList)] "c".toList ≠ none) :=
  ⟨(value_names_defined [("b".toList, "a+2".toList), ("a".toList, "1".toList)]).2.2.2 2
      ⟨[("b".toList, "a+2".toList), ("a".toList, "1".toList)],
        [("a".toList, 1), ("b".toList, 3)]⟩
      "a = 1\nb = 3\n".toList (by decide) "b".toList,
    (value_names_defined [("b".toList, "a+2".toList), ("a".toList, "1".toList)]).2.2.2 2
      ⟨[("b".toList, "a+2".toList), ("a".toList, "1".toList)],
        [("a".toList, 1), ("b".toList, 3)]⟩
      "a = 1\nb = 3\n".toList (by decide) "c".toList⟩

end EqnEval
